import Mathlib

set_option maxRecDepth 8000

/-! Verification of the DailyReport tabular reconciliation pipeline
(file `1.1【聚合】dau-分渠道.py`).  Python strings are embedded as lists of
characters, pandas tables as association lists from column names to cell
values, and every operation is translated directly from the source. -/

/-- Python strings are modelled as lists of characters. -/
abbrev Str := List Char

/-- Character data of a Lean string literal; used to write the Python
string literals appearing in the source. -/
def str (s : String) : Str := s.data

/-- Test for a decimal digit character (Python regex `\d` on ASCII input). -/
def isDigitC (c : Char) : Bool := decide (48 ≤ c.toNat) && decide (c.toNat ≤ 57)

/-- Numeric value of a digit character. -/
def digitVal (c : Char) : Nat := c.toNat - 48

/-- Every character of the list is a decimal digit. -/
def allDigits (l : Str) : Bool := l.all isDigitC

/-- Decimal value of a digit list (most significant digit first), the
mathematical value of a decimal numeral. -/
def natOfDigits : Str → Nat
  | [] => 0
  | c :: cs => digitVal c * 10 ^ cs.length + natOfDigits cs

/-- Lexicographic comparison of character lists by code point: the order
Python uses to compare strings. -/
def strLt : Str → Str → Bool
  | [], [] => false
  | [], _ :: _ => true
  | _ :: _, [] => false
  | a :: as, b :: bs =>
    if a.toNat < b.toNat then true
    else if b.toNat < a.toNat then false
    else strLt as bs

/-- Python `str.split(sep)` for a one-character separator. -/
def splitOnChar (sep : Char) : Str → List Str
  | [] => [[]]
  | c :: cs =>
    if c = sep then [] :: splitOnChar sep cs
    else
      match splitOnChar sep cs with
      | [] => [[c]]
      | p :: ps => (c :: p) :: ps

/-- Python `str.zfill`: left-pad with zeros to the given width, keeping a
leading sign character in front of the padding. -/
def zfill (w : Nat) : Str → Str
  | [] => List.replicate w '0'
  | c :: rest =>
    if w ≤ (c :: rest).length then c :: rest
    else if c = '+' ∨ c = '-' then c :: (List.replicate (w - (c :: rest).length) '0' ++ rest)
    else List.replicate (w - (c :: rest).length) '0' ++ (c :: rest)

/-- `convert_date_to_sortable` from the source: split on the slash
separator and, when there are exactly three parts, zero-pad month and day
to two characters and concatenate year, month, day; any other shape is
returned unchanged. -/
def convert_date_to_sortable (s : Str) : Str :=
  match splitOnChar '/' s with
  | [y, m, d] => y ++ (zfill 2 m ++ zfill 2 d)
  | _ => s

theorem natOfDigits_cons (c : Char) (cs : Str) :
    natOfDigits (c :: cs) = digitVal c * 10 ^ cs.length + natOfDigits cs := rfl

theorem natOfDigits_append (l1 l2 : Str) :
    natOfDigits (l1 ++ l2) = natOfDigits l1 * 10 ^ l2.length + natOfDigits l2 := by
  induction l1 with
  | nil => simp [natOfDigits]
  | cons c cs ih =>
    rw [List.cons_append, natOfDigits_cons, natOfDigits_cons, ih, List.length_append, pow_add]
    ring

theorem isDigitC_iff (c : Char) : isDigitC c = true ↔ 48 ≤ c.toNat ∧ c.toNat ≤ 57 := by
  simp [isDigitC]

theorem digitVal_le (c : Char) (h : isDigitC c = true) : digitVal c ≤ 9 := by
  rw [isDigitC_iff] at h
  unfold digitVal
  omega

theorem allDigits_cons (c : Char) (cs : Str) (h : allDigits (c :: cs) = true) :
    isDigitC c = true ∧ allDigits cs = true := by
  simpa [allDigits, List.all_cons, Bool.and_eq_true] using h

theorem natOfDigits_lt (l : Str) (h : allDigits l = true) : natOfDigits l < 10 ^ l.length := by
  induction l with
  | nil => simp [natOfDigits]
  | cons c cs ih =>
    obtain ⟨h1, h2⟩ := allDigits_cons c cs h
    have hv := digitVal_le c h1
    have hcs := ih h2
    have h3 : digitVal c * 10 ^ cs.length ≤ 9 * 10 ^ cs.length :=
      Nat.mul_le_mul_right _ hv
    rw [natOfDigits_cons, List.length_cons, pow_succ]
    omega

theorem strLt_digits (a : Str) : ∀ b : Str, allDigits a = true → allDigits b = true →
    a.length = b.length → natOfDigits a < natOfDigits b → strLt a b = true := by
  induction a with
  | nil =>
    intro b _ _ hlen hv
    cases b with
    | nil => simp [natOfDigits] at hv
    | cons d ds => simp at hlen
  | cons c cs ih =>
    intro b ha hb hlen hv
    cases b with
    | nil => simp at hlen
    | cons d ds =>
      obtain ⟨hc, hcs⟩ := allDigits_cons c cs ha
      obtain ⟨hd, hds⟩ := allDigits_cons d ds hb
      have hlen2 : cs.length = ds.length := by simpa using hlen
      rcases Nat.lt_trichotomy c.toNat d.toNat with hlt | heq | hgt
      · simp [strLt, hlt]
      · have hdv : digitVal c = digitVal d := by unfold digitVal; omega
        have hnlt : ¬ c.toNat < d.toNat := by omega
        have hnlt2 : ¬ d.toNat < c.toNat := by omega
        have hv2 : natOfDigits cs < natOfDigits ds := by
          rw [natOfDigits_cons, natOfDigits_cons, hdv, hlen2] at hv
          omega
        simp [strLt, hnlt, hnlt2]
        exact ih ds hcs hds hlen2 hv2
      · exfalso
        have hdv : digitVal d < digitVal c := by
          rw [isDigitC_iff] at hc hd
          unfold digitVal
          omega
        have hbound2 := natOfDigits_lt ds hds
        rw [natOfDigits_cons, natOfDigits_cons, hlen2] at hv
        have hmul : (digitVal d + 1) * 10 ^ ds.length ≤ digitVal c * 10 ^ ds.length :=
          Nat.mul_le_mul_right _ hdv
        have hexp : (digitVal d + 1) * 10 ^ ds.length =
            digitVal d * 10 ^ ds.length + 10 ^ ds.length := by ring
        omega

theorem digit_ne_of (c x : Char) (h : isDigitC c = true) (hx : isDigitC x = false) : c ≠ x := by
  intro he
  rw [he, hx] at h
  exact Bool.noConfusion h

theorem allDigits_mem (l : Str) (c : Char) (hl : allDigits l = true) (hc : c ∈ l) :
    isDigitC c = true := by
  simp only [allDigits, List.all_eq_true] at hl
  exact hl c hc

theorem splitOnChar_no_sep (sep : Char) (l : Str) (h : ∀ c ∈ l, c ≠ sep) :
    splitOnChar sep l = [l] := by
  induction l with
  | nil => rfl
  | cons c cs ih =>
    have hc : ¬ c = sep := h c (by simp)
    have ih2 := ih (fun x hx => h x (by simp [hx]))
    simp only [splitOnChar, if_neg hc, ih2]

theorem splitOnChar_append (sep : Char) (a r : Str) (h : ∀ c ∈ a, c ≠ sep) :
    splitOnChar sep (a ++ sep :: r) = a :: splitOnChar sep r := by
  induction a with
  | nil => simp [splitOnChar]
  | cons c cs ih =>
    have hc : ¬ c = sep := h c (by simp)
    have ih2 := ih (fun x hx => h x (by simp [hx]))
    rw [List.cons_append]
    simp only [splitOnChar, if_neg hc, List.append_eq, ih2]

theorem allDigits_replicate_zero (k : Nat) : allDigits (List.replicate k '0') = true := by
  simp only [allDigits, List.all_eq_true]
  intro c hc
  rw [List.eq_of_mem_replicate hc]
  decide

theorem natOfDigits_replicate_zero (k : Nat) : natOfDigits (List.replicate k '0') = 0 := by
  induction k with
  | zero => rfl
  | succ n ih =>
    rw [List.replicate_succ, natOfDigits_cons, ih]
    simp [digitVal]

theorem allDigits_append (l1 l2 : Str) :
    allDigits (l1 ++ l2) = (allDigits l1 && allDigits l2) := by
  simp [allDigits, List.all_append]

theorem zfill_of_digits (w : Nat) (s : Str) (hs : allDigits s = true) :
    zfill w s = List.replicate (w - s.length) '0' ++ s := by
  cases s with
  | nil => simp [zfill]
  | cons c rest =>
    obtain ⟨hc, _⟩ := allDigits_cons c rest hs
    have hns : ¬ (c = '+' ∨ c = '-') := by
      rintro (he | he)
      · exact digit_ne_of c '+' hc (by decide) he
      · exact digit_ne_of c '-' hc (by decide) he
    by_cases h : w ≤ (c :: rest).length
    · have h0 : w - (c :: rest).length = 0 := Nat.sub_eq_zero_of_le h
      simp only [zfill, if_pos h, h0, List.replicate_zero, List.nil_append]
    · simp only [zfill, if_neg h, if_neg hns]

theorem zfill_allDigits (w : Nat) (s : Str) (hs : allDigits s = true) :
    allDigits (zfill w s) = true := by
  rw [zfill_of_digits w s hs, allDigits_append, allDigits_replicate_zero, hs]
  rfl

theorem zfill_value (w : Nat) (s : Str) (hs : allDigits s = true) :
    natOfDigits (zfill w s) = natOfDigits s := by
  rw [zfill_of_digits w s hs, natOfDigits_append, natOfDigits_replicate_zero]
  simp

theorem zfill_length (w : Nat) (s : Str) (hs : allDigits s = true) (hl : s.length ≤ w) :
    (zfill w s).length = w := by
  rw [zfill_of_digits w s hs]
  simp
  omega

theorem digits_ne_slash (l : Str) (hl : allDigits l = true) : ∀ c ∈ l, c ≠ '/' := by
  intro c hc
  exact digit_ne_of c '/' (allDigits_mem l c hl hc) (by decide)

/-- C4: `convert_date_to_sortable` is order-preserving: for two calendar
dates, each written as year, month, day joined by slashes with an all-digit
4-character year and all-digit 1- or 2-character month and day, if the
first date is earlier in calendar order (year, month, day compared
numerically), the produced sort keys compare strictly in code-point
lexicographic order, the order Python uses on strings. -/
theorem c4_toSortKey_order_preserving
    (y1 m1 d1 y2 m2 d2 : Str)
    (hy1 : allDigits y1 = true) (hm1 : allDigits m1 = true) (hd1 : allDigits d1 = true)
    (hy2 : allDigits y2 = true) (hm2 : allDigits m2 = true) (hd2 : allDigits d2 = true)
    (hy1l : y1.length = 4) (hy2l : y2.length = 4)
    (hm1l : 1 ≤ m1.length ∧ m1.length ≤ 2) (hm2l : 1 ≤ m2.length ∧ m2.length ≤ 2)
    (hd1l : 1 ≤ d1.length ∧ d1.length ≤ 2) (hd2l : 1 ≤ d2.length ∧ d2.length ≤ 2)
    (hcal : natOfDigits y1 < natOfDigits y2 ∨
      (natOfDigits y1 = natOfDigits y2 ∧ (natOfDigits m1 < natOfDigits m2 ∨
        (natOfDigits m1 = natOfDigits m2 ∧ natOfDigits d1 < natOfDigits d2)))) :
    strLt (convert_date_to_sortable (y1 ++ '/' :: (m1 ++ '/' :: d1)))
      (convert_date_to_sortable (y2 ++ '/' :: (m2 ++ '/' :: d2))) = true := by
  have key : ∀ y m d : Str, allDigits y = true → allDigits m = true → allDigits d = true →
      convert_date_to_sortable (y ++ '/' :: (m ++ '/' :: d)) = y ++ (zfill 2 m ++ zfill 2 d) := by
    intro y m d hy hm hd
    have hsp : splitOnChar '/' (y ++ '/' :: (m ++ '/' :: d)) = [y, m, d] := by
      rw [splitOnChar_append '/' y _ (digits_ne_slash y hy),
        splitOnChar_append '/' m _ (digits_ne_slash m hm),
        splitOnChar_no_sep '/' d (digits_ne_slash d hd)]
    unfold convert_date_to_sortable
    rw [hsp]
  rw [key y1 m1 d1 hy1 hm1 hd1, key y2 m2 d2 hy2 hm2 hd2]
  have hall : ∀ y m d : Str, allDigits y = true → allDigits m = true → allDigits d = true →
      allDigits (y ++ (zfill 2 m ++ zfill 2 d)) = true := by
    intro y m d hy hm hd
    rw [allDigits_append, allDigits_append, hy, zfill_allDigits 2 m hm, zfill_allDigits 2 d hd]
    rfl
  have hlen : ∀ y m d : Str, allDigits m = true → allDigits d = true →
      y.length = 4 → m.length ≤ 2 → d.length ≤ 2 →
      (y ++ (zfill 2 m ++ zfill 2 d)).length = 8 := by
    intro y m d hm hd hyl hml hdl
    simp [zfill_length 2 m hm hml, zfill_length 2 d hd hdl, hyl]
  have hval : ∀ y m d : Str, allDigits m = true → allDigits d = true →
      m.length ≤ 2 → d.length ≤ 2 →
      natOfDigits (y ++ (zfill 2 m ++ zfill 2 d)) =
        natOfDigits y * 10 ^ 4 + (natOfDigits m * 10 ^ 2 + natOfDigits d) := by
    intro y m d hm hd hml hdl
    rw [natOfDigits_append, natOfDigits_append, zfill_value 2 m hm, zfill_value 2 d hd,
      List.length_append, zfill_length 2 m hm hml, zfill_length 2 d hd hdl]
  apply strLt_digits _ _ (hall y1 m1 d1 hy1 hm1 hd1) (hall y2 m2 d2 hy2 hm2 hd2)
  · rw [hlen y1 m1 d1 hm1 hd1 hy1l hm1l.2 hd1l.2, hlen y2 m2 d2 hm2 hd2 hy2l hm2l.2 hd2l.2]
  · rw [hval y1 m1 d1 hm1 hd1 hm1l.2 hd1l.2, hval y2 m2 d2 hm2 hd2 hm2l.2 hd2l.2]
    have hb1 : natOfDigits m1 < 100 := by
      have := natOfDigits_lt m1 hm1
      have h2 : (10 : Nat) ^ m1.length ≤ 10 ^ 2 := Nat.pow_le_pow_right (by omega) hm1l.2
      norm_num at h2
      omega
    have hb2 : natOfDigits m2 < 100 := by
      have := natOfDigits_lt m2 hm2
      have h2 : (10 : Nat) ^ m2.length ≤ 10 ^ 2 := Nat.pow_le_pow_right (by omega) hm2l.2
      norm_num at h2
      omega
    have hb3 : natOfDigits d1 < 100 := by
      have := natOfDigits_lt d1 hd1
      have h2 : (10 : Nat) ^ d1.length ≤ 10 ^ 2 := Nat.pow_le_pow_right (by omega) hd1l.2
      norm_num at h2
      omega
    have hb4 : natOfDigits d2 < 100 := by
      have := natOfDigits_lt d2 hd2
      have h2 : (10 : Nat) ^ d2.length ≤ 10 ^ 2 := Nat.pow_le_pow_right (by omega) hd2l.2
      norm_num at h2
      omega
    norm_num
    omega

/-- Witness for C4 at the spec's example: 2025/3/9 is earlier than
2025/3/17 and the produced sort keys 20250309 and 20250317 compare
accordingly. -/
theorem c4_witness :
    convert_date_to_sortable (str "2025" ++ '/' :: (str "3" ++ '/' :: str "9")) = str "20250309" ∧
      strLt (convert_date_to_sortable (str "2025" ++ '/' :: (str "3" ++ '/' :: str "9")))
        (convert_date_to_sortable (str "2025" ++ '/' :: (str "3" ++ '/' :: str "17"))) = true :=
  ⟨by decide,
    c4_toSortKey_order_preserving (str "2025") (str "3") (str "9") (str "2025") (str "3") (str "17")
      (by decide) (by decide) (by decide) (by decide) (by decide) (by decide)
      (by decide) (by decide) (by decide) (by decide) (by decide) (by decide) (by decide)⟩

/-- Whitespace characters stripped by Python `str.strip` on ASCII input. -/
def isWs (c : Char) : Bool :=
  decide (c = ' ' ∨ c = '\t' ∨ c = '\n' ∨ c = '\r' ∨ c = '\x0b' ∨ c = '\x0c')

/-- Python `str.strip`: remove whitespace from both ends. -/
def stripWS (s : Str) : Str :=
  ((s.dropWhile isWs).reverse.dropWhile isWs).reverse

/-- Digit-and-underscore tail of a Python integer literal: digits with
single underscores allowed only between digits. -/
def intRest : Str → Bool
  | [] => true
  | [c] => isDigitC c
  | c :: d :: cs =>
    if c = '_' then isDigitC d && intRest cs
    else isDigitC c && intRest (d :: cs)

/-- Body of a Python integer literal after the optional sign: a digit
followed by an `intRest` tail. -/
def intBody : Str → Bool
  | [] => false
  | c :: cs => isDigitC c && intRest cs

/-- The literal with underscore digit separators removed. -/
def noUnders (s : Str) : Str := s.filter (fun c => !(decide (c = '_')))

/-- Python `int(string)`: strips whitespace, accepts an optional sign and a
nonempty digit sequence with single underscores between digits; yields the
signed decimal value, or nothing for an invalid literal. -/
def pyInt (s : Str) : Option Int :=
  match stripWS s with
  | '+' :: r => if intBody r then some ((natOfDigits (noUnders r) : Nat) : Int) else none
  | '-' :: r => if intBody r then some (-((natOfDigits (noUnders r) : Nat) : Int)) else none
  | r => if intBody r then some ((natOfDigits (noUnders r) : Nat) : Int) else none

/-- The decimal digit character for a value below ten. -/
def digitChar (n : Nat) : Char :=
  if n = 0 then '0' else if n = 1 then '1' else if n = 2 then '2' else if n = 3 then '3'
  else if n = 4 then '4' else if n = 5 then '5' else if n = 6 then '6' else if n = 7 then '7'
  else if n = 8 then '8' else '9'

/-- Decimal rendering of a natural number, most significant digit first,
as Python formats nonnegative integers. -/
def natRepr (n : Nat) : Str :=
  if n < 10 then [digitChar n]
  else natRepr (n / 10) ++ [digitChar (n % 10)]
termination_by n
decreasing_by exact Nat.div_lt_self (by omega) (by omega)

/-- Zero padding of Python %0wd formatting, inserted after the sign. -/
def padZeros (w : Nat) (s : Str) : Str :=
  if w ≤ s.length then s else List.replicate (w - s.length) '0' ++ s

/-- Python format spec 0wd for an integer: minimum width counting the
sign, zeros inserted between the sign and the digits. -/
def fmtInt (w : Nat) (n : Int) : Str :=
  if n < 0 then '-' :: padZeros (w - 1) (natRepr (-n).toNat)
  else padZeros w (natRepr n.toNat)

/-- Replacement of every dash by a slash (Python str.replace with a
one-character pattern). -/
def replDash (s : Str) : Str := s.map (fun c => if c = '-' then '/' else c)

/-- The date-reformat attempt inside force_standardize_date: when the text
contains a slash and splits on slashes into exactly three parts that all
parse as Python integers, the zero-padded reformatted date; otherwise
nothing. -/
def tryParseDate (s : Str) : Option Str :=
  if s.any (fun c => decide (c = '/')) then
    match splitOnChar '/' s with
    | [p1, p2, p3] =>
      match pyInt p1, pyInt p2, pyInt p3 with
      | some y, some m, some d =>
        some (fmtInt 4 y ++ '/' :: (fmtInt 2 m ++ '/' :: fmtInt 2 d))
      | _, _, _ => none
    | _ => none
  else none

/-- The dash replacement guarded by the containment test, as the source
writes it: replace dashes by slashes only when a dash is present. -/
def condDashRepl (s : Str) : Str :=
  if s.any (fun c => decide (c = '-')) then replDash s else s

/-- force_standardize_date from the source: empty or whitespace-only input
is returned untouched; otherwise the input is stripped, dashes become
slashes, and a three-part all-integer date is reformatted with a
zero-padded 4-digit year and 2-digit month and day; any other text is
returned in its stripped, dash-replaced form. -/
def force_standardize_date (x : Str) : Str :=
  if stripWS x = [] then x
  else
    match tryParseDate (condDashRepl (stripWS x)) with
    | some o => o
    | none => condDashRepl (stripWS x)

theorem dropWhile_head_false (p : Char → Bool) (l : Str) :
    ∀ c, (l.dropWhile p).head? = some c → p c = false := by
  induction l with
  | nil => intro c h; simp [List.dropWhile] at h
  | cons a t ih =>
    intro c h
    rw [List.dropWhile_cons] at h
    by_cases ha : p a
    · rw [if_pos ha] at h
      exact ih c h
    · rw [if_neg ha] at h
      simp only [List.head?_cons, Option.some.injEq] at h
      subst h
      cases hpa : p a
      · rfl
      · exact absurd hpa ha

theorem dropWhile_eq_self_of_head (p : Char → Bool) (l : Str)
    (h : ∀ c, l.head? = some c → p c = false) : l.dropWhile p = l := by
  cases l with
  | nil => rfl
  | cons a t =>
    have ha := h a rfl
    simp [List.dropWhile_cons, ha]

theorem dropWhile_eq_self_of_all (p : Char → Bool) (l : Str)
    (h : ∀ c ∈ l, p c = false) : l.dropWhile p = l := by
  apply dropWhile_eq_self_of_head
  intro c hc
  apply h
  cases l with
  | nil => simp at hc
  | cons a t =>
    simp only [List.head?_cons, Option.some.injEq] at hc
    subst hc
    exact List.mem_cons_self _ _

theorem stripWS_idem (s : Str) : stripWS (stripWS s) = stripWS s := by
  unfold stripWS
  have hdwC : ((s.dropWhile isWs).reverse.dropWhile isWs).dropWhile isWs =
      (s.dropWhile isWs).reverse.dropWhile isWs := by
    apply dropWhile_eq_self_of_head
    intro c hc
    exact dropWhile_head_false isWs (s.dropWhile isWs).reverse c hc
  have hCrev : ((s.dropWhile isWs).reverse.dropWhile isWs).reverse.dropWhile isWs =
      ((s.dropWhile isWs).reverse.dropWhile isWs).reverse := by
    apply dropWhile_eq_self_of_head
    intro c hc
    rw [List.head?_reverse] at hc
    have hCne : (s.dropWhile isWs).reverse.dropWhile isWs ≠ [] := by
      intro h0
      rw [h0] at hc
      simp at hc
    rcases List.dropWhile_suffix (l := (s.dropWhile isWs).reverse) isWs with ⟨t, ht⟩
    have h1 : (t ++ (s.dropWhile isWs).reverse.dropWhile isWs).getLast? =
        ((s.dropWhile isWs).reverse.dropWhile isWs).getLast? :=
      List.getLast?_append_of_ne_nil t hCne
    rw [ht, List.getLast?_reverse, hc] at h1
    exact dropWhile_head_false isWs s c h1
  rw [hCrev, List.reverse_reverse, hdwC]

theorem stripWS_of_no_ws (l : Str) (h : ∀ c ∈ l, isWs c = false) : stripWS l = l := by
  unfold stripWS
  rw [dropWhile_eq_self_of_all isWs l h,
    dropWhile_eq_self_of_all isWs l.reverse (fun c hc => h c (List.mem_reverse.mp hc))]
  exact List.reverse_reverse l

theorem mem_stripWS (l : Str) (c : Char) (h : c ∈ stripWS l) : c ∈ l := by
  unfold stripWS at h
  rw [List.mem_reverse] at h
  have h2 := (List.dropWhile_sublist (l := (l.dropWhile isWs).reverse) isWs).mem h
  rw [List.mem_reverse] at h2
  exact (List.dropWhile_sublist (l := l) isWs).mem h2

theorem stripWS_length_pos (l : Str) (h : stripWS l ≠ []) : l ≠ [] := by
  intro h0
  subst h0
  exact h rfl

theorem stripWS_replDash (l : Str) : stripWS (replDash l) = replDash (stripWS l) := by
  have hpf : isWs ∘ (fun c => if c = '-' then '/' else c) = isWs := by
    funext c
    simp only [Function.comp_apply]
    by_cases hc : c = '-'
    · subst hc; decide
    · rw [if_neg hc]
  unfold stripWS replDash
  simp only [List.dropWhile_map, hpf, ← List.map_reverse]

theorem replDash_no_dash (l : Str) : ∀ c ∈ replDash l, c ≠ '-' := by
  intro c hc
  unfold replDash at hc
  rcases List.mem_map.mp hc with ⟨a, _, ha2⟩
  by_cases hda : a = '-'
  · rw [hda] at ha2
    simp at ha2
    rw [← ha2]
    decide
  · rw [if_neg hda] at ha2
    rw [← ha2]
    exact hda

theorem replDash_eq_self (l : Str) (h : ∀ c ∈ l, c ≠ '-') : replDash l = l := by
  induction l with
  | nil => rfl
  | cons a t ih =>
    have ht := ih (fun c hc => h c (List.mem_cons_of_mem _ hc))
    unfold replDash at ht ⊢
    rw [List.map_cons, if_neg (h a (List.mem_cons_self _ _)), ht]

theorem replDash_length (l : Str) : (replDash l).length = l.length := by
  unfold replDash
  exact List.length_map l _

theorem splitOnChar_ne_nil (sep : Char) (l : Str) : splitOnChar sep l ≠ [] := by
  cases l with
  | nil => simp [splitOnChar]
  | cons c cs =>
    simp only [splitOnChar]
    split
    · simp
    · split <;> simp

theorem splitOnChar_parts_mem (sep : Char) (l : Str) :
    ∀ p ∈ splitOnChar sep l, ∀ c ∈ p, c ∈ l := by
  induction l with
  | nil =>
    intro p hp c hc
    simp only [splitOnChar, List.mem_singleton] at hp
    subst hp
    simp at hc
  | cons a t ih =>
    intro p hp c hc
    by_cases ha : a = sep
    · simp only [splitOnChar, if_pos ha] at hp
      rcases List.mem_cons.mp hp with h1 | h1
      · subst h1; simp at hc
      · exact List.mem_cons_of_mem _ (ih p h1 c hc)
    · simp only [splitOnChar, if_neg ha] at hp
      cases hsp : splitOnChar sep t with
      | nil => exact absurd hsp (splitOnChar_ne_nil sep t)
      | cons p0 ps =>
        rw [hsp] at hp
        simp only [List.mem_cons] at hp
        rcases hp with h1 | h1
        · subst h1
          rcases List.mem_cons.mp hc with h2 | h2
          · subst h2; exact List.mem_cons_self _ _
          · have hmem : c ∈ t := ih p0 (by rw [hsp]; exact List.mem_cons_self _ _) c h2
            exact List.mem_cons_of_mem _ hmem
        · have hmem : c ∈ t := ih p (by rw [hsp]; exact List.mem_cons_of_mem _ h1) c hc
          exact List.mem_cons_of_mem _ hmem

theorem digitChar_isDigit (d : Nat) : isDigitC (digitChar d) = true := by
  unfold digitChar
  split
  · decide
  split
  · decide
  split
  · decide
  split
  · decide
  split
  · decide
  split
  · decide
  split
  · decide
  split
  · decide
  split
  · decide
  · decide

theorem digitVal_digitChar (d : Nat) (h : d < 10) : digitVal (digitChar d) = d := by
  interval_cases d <;> decide

theorem natRepr_allDigits (n : Nat) : allDigits (natRepr n) = true := by
  induction n using Nat.strong_induction_on with
  | _ n ih =>
    rw [natRepr]
    split
    · simp [allDigits, digitChar_isDigit]
    · next h =>
      rw [allDigits_append, ih (n / 10) (Nat.div_lt_self (by omega) (by omega))]
      simp [allDigits, digitChar_isDigit]

theorem natRepr_ne_nil (n : Nat) : natRepr n ≠ [] := by
  rw [natRepr]
  split
  · simp
  · simp

theorem natOfDigits_natRepr (n : Nat) : natOfDigits (natRepr n) = n := by
  induction n using Nat.strong_induction_on with
  | _ n ih =>
    rw [natRepr]
    split
    · next h =>
      show digitVal (digitChar n) * 10 ^ 0 + 0 = n
      rw [digitVal_digitChar n h]
      ring
    · next h =>
      rw [natOfDigits_append, ih (n / 10) (Nat.div_lt_self (by omega) (by omega))]
      show n / 10 * 10 ^ ([digitChar (n % 10)].length) +
        (digitVal (digitChar (n % 10)) * 10 ^ 0 + 0) = n
      rw [digitVal_digitChar (n % 10) (Nat.mod_lt _ (by omega))]
      simp
      omega

theorem padZeros_eq (w : Nat) (s : Str) :
    padZeros w s = List.replicate (w - s.length) '0' ++ s := by
  unfold padZeros
  split
  · next h =>
    rw [Nat.sub_eq_zero_of_le h]
    simp
  · rfl

theorem padZeros_allDigits (w : Nat) (s : Str) (hs : allDigits s = true) :
    allDigits (padZeros w s) = true := by
  rw [padZeros_eq, allDigits_append, allDigits_replicate_zero, hs]
  rfl

theorem padZeros_value (w : Nat) (s : Str) :
    natOfDigits (padZeros w s) = natOfDigits s := by
  rw [padZeros_eq, natOfDigits_append, natOfDigits_replicate_zero]
  simp

theorem padZeros_ne_nil (w : Nat) (s : Str) (hs : s ≠ []) : padZeros w s ≠ [] := by
  rw [padZeros_eq]
  intro h
  rcases List.append_eq_nil.mp h with ⟨_, h2⟩
  exact hs h2

theorem isWs_false_of_digit (c : Char) (h : isDigitC c = true) : isWs c = false := by
  unfold isWs
  simp only [decide_eq_false_iff_not]
  rintro (rfl | rfl | rfl | rfl | rfl | rfl) <;> exact absurd h (by decide)

theorem intRest_of_digits (l : Str) (h : allDigits l = true) : intRest l = true := by
  have H : ∀ n (l : Str), l.length ≤ n → allDigits l = true → intRest l = true := by
    intro n
    induction n with
    | zero =>
      intro l hl _
      have h0 : l = [] := List.length_eq_zero.mp (by omega)
      subst h0
      rfl
    | succ n ih =>
      intro l hl hdig
      rcases l with _ | ⟨c, _ | ⟨d, cs⟩⟩
      · rfl
      · show isDigitC c = true
        exact (allDigits_cons c [] hdig).1
      · obtain ⟨hc, hrest⟩ := allDigits_cons c (d :: cs) hdig
        have hne : ¬ c = '_' := digit_ne_of c '_' hc (by decide)
        show (if c = '_' then isDigitC d && intRest cs
          else isDigitC c && intRest (d :: cs)) = true
        rw [if_neg hne, hc, ih (d :: cs) (by simp at hl ⊢; omega) hrest]
        rfl
  exact H l.length l le_rfl h

theorem intBody_of_digits (l : Str) (h : allDigits l = true) (hne : l ≠ []) :
    intBody l = true := by
  cases l with
  | nil => exact absurd rfl hne
  | cons c cs =>
    obtain ⟨hc, hcs⟩ := allDigits_cons c cs h
    simp only [intBody, hc, intRest_of_digits cs hcs]
    rfl

theorem noUnders_of_digits (l : Str) (h : allDigits l = true) : noUnders l = l := by
  unfold noUnders
  apply List.filter_eq_self.mpr
  intro c hc
  have hne := digit_ne_of c '_' (allDigits_mem l c h hc) (by decide)
  simp [hne]

theorem pyInt_digits (l : Str) (h : allDigits l = true) (hne : l ≠ []) :
    pyInt l = some ((natOfDigits l : Nat) : Int) := by
  unfold pyInt
  have hstrip : stripWS l = l :=
    stripWS_of_no_ws l (fun c hc => isWs_false_of_digit c (allDigits_mem l c h hc))
  rw [hstrip]
  cases l with
  | nil => exact absurd rfl hne
  | cons c cs =>
    obtain ⟨hc, _⟩ := allDigits_cons c cs h
    split
    · next r heq =>
      exfalso
      injection heq with h1 _
      exact digit_ne_of c '+' hc (by decide) h1
    · next r heq =>
      exfalso
      injection heq with h1 _
      exact digit_ne_of c '-' hc (by decide) h1
    · rw [if_pos (intBody_of_digits (c :: cs) h hne), noUnders_of_digits (c :: cs) h]

theorem pyInt_nonneg (s : Str) (hnd : ∀ c ∈ s, c ≠ '-') (v : Int) (h : pyInt s = some v) :
    0 ≤ v := by
  unfold pyInt at h
  split at h
  · next r heq =>
    split at h
    · injection h with h1
      rw [← h1]
      exact Int.natCast_nonneg _
    · exact absurd h (by simp)
  · next r heq =>
    exfalso
    have hmem : '-' ∈ stripWS s := by rw [heq]; exact List.mem_cons_self _ _
    exact hnd '-' (mem_stripWS s '-' hmem) rfl
  · split at h
    · injection h with h1
      rw [← h1]
      exact Int.natCast_nonneg _
    · exact absurd h (by simp)

theorem fmtInt_nonneg_eq (w : Nat) (n : Int) (h : 0 ≤ n) :
    fmtInt w n = padZeros w (natRepr n.toNat) := by
  unfold fmtInt
  rw [if_neg (by omega : ¬ n < 0)]

theorem fmtInt_allDigits (w : Nat) (n : Int) (h : 0 ≤ n) :
    allDigits (fmtInt w n) = true := by
  rw [fmtInt_nonneg_eq w n h]
  exact padZeros_allDigits _ _ (natRepr_allDigits _)

theorem fmtInt_ne_nil (w : Nat) (n : Int) (h : 0 ≤ n) : fmtInt w n ≠ [] := by
  rw [fmtInt_nonneg_eq w n h]
  exact padZeros_ne_nil _ _ (natRepr_ne_nil _)

theorem pyInt_fmtInt (w : Nat) (n : Int) (h : 0 ≤ n) :
    pyInt (fmtInt w n) = some n := by
  rw [pyInt_digits (fmtInt w n) (fmtInt_allDigits w n h) (fmtInt_ne_nil w n h)]
  rw [fmtInt_nonneg_eq w n h, padZeros_value, natOfDigits_natRepr, Int.toNat_of_nonneg h]

theorem mem_fmt_triple (y m d : Int) (hy : 0 ≤ y) (hm : 0 ≤ m) (hd : 0 ≤ d) (c : Char)
    (hc : c ∈ fmtInt 4 y ++ '/' :: (fmtInt 2 m ++ '/' :: fmtInt 2 d)) :
    isDigitC c = true ∨ c = '/' := by
  rcases List.mem_append.mp hc with h1 | h1
  · exact Or.inl (allDigits_mem _ c (fmtInt_allDigits 4 y hy) h1)
  · rcases List.mem_cons.mp h1 with h2 | h2
    · exact Or.inr h2
    · rcases List.mem_append.mp h2 with h3 | h3
      · exact Or.inl (allDigits_mem _ c (fmtInt_allDigits 2 m hm) h3)
      · rcases List.mem_cons.mp h3 with h4 | h4
        · exact Or.inr h4
        · exact Or.inl (allDigits_mem _ c (fmtInt_allDigits 2 d hd) h4)

theorem condDashRepl_no_dash (s : Str) : ∀ c ∈ condDashRepl s, c ≠ '-' := by
  intro c hc
  unfold condDashRepl at hc
  split at hc
  · exact replDash_no_dash s c hc
  · next hany =>
    intro h0
    subst h0
    exact hany (List.any_eq_true.mpr ⟨'-', hc, by simp⟩)

theorem condDashRepl_eq_self (s : Str) (h : ∀ c ∈ s, c ≠ '-') : condDashRepl s = s := by
  unfold condDashRepl
  rw [if_neg ?_]
  intro hany
  rcases List.any_eq_true.mp hany with ⟨c, hc1, hc2⟩
  simp only [decide_eq_true_eq] at hc2
  exact h c hc1 hc2

theorem stripWS_condDashRepl (x : Str) :
    stripWS (condDashRepl (stripWS x)) = condDashRepl (stripWS x) := by
  unfold condDashRepl
  split
  · rw [stripWS_replDash, stripWS_idem]
  · exact stripWS_idem x

theorem condDashRepl_ne_nil (x : Str) (h : stripWS x ≠ []) :
    condDashRepl (stripWS x) ≠ [] := by
  unfold condDashRepl
  split
  · intro h0
    apply h
    have := congrArg List.length h0
    rw [replDash_length] at this
    exact List.length_eq_zero.mp this
  · exact h

theorem force_standardize_fmt_triple (y m d : Int) (hy : 0 ≤ y) (hm : 0 ≤ m) (hd : 0 ≤ d) :
    force_standardize_date (fmtInt 4 y ++ '/' :: (fmtInt 2 m ++ '/' :: fmtInt 2 d)) =
      fmtInt 4 y ++ '/' :: (fmtInt 2 m ++ '/' :: fmtInt 2 d) := by
  have hchars := mem_fmt_triple y m d hy hm hd
  have hnws : ∀ c ∈ fmtInt 4 y ++ '/' :: (fmtInt 2 m ++ '/' :: fmtInt 2 d), isWs c = false := by
    intro c hc
    rcases hchars c hc with h1 | h1
    · exact isWs_false_of_digit c h1
    · subst h1; decide
  have hstrip := stripWS_of_no_ws _ hnws
  have hone : fmtInt 4 y ++ '/' :: (fmtInt 2 m ++ '/' :: fmtInt 2 d) ≠ [] := by
    intro h0
    rcases List.append_eq_nil.mp h0 with ⟨_, h2⟩
    exact List.cons_ne_nil _ _ h2
  have hnd : ∀ c ∈ fmtInt 4 y ++ '/' :: (fmtInt 2 m ++ '/' :: fmtInt 2 d), c ≠ '-' := by
    intro c hc
    rcases hchars c hc with h1 | h1
    · exact digit_ne_of c '-' h1 (by decide)
    · subst h1; decide
  have hcond := condDashRepl_eq_self _ hnd
  have hsplit : splitOnChar '/' (fmtInt 4 y ++ '/' :: (fmtInt 2 m ++ '/' :: fmtInt 2 d)) =
      [fmtInt 4 y, fmtInt 2 m, fmtInt 2 d] := by
    rw [splitOnChar_append '/' _ _
        (fun c hc => digit_ne_of c '/' (allDigits_mem _ c (fmtInt_allDigits 4 y hy) hc) (by decide)),
      splitOnChar_append '/' _ _
        (fun c hc => digit_ne_of c '/' (allDigits_mem _ c (fmtInt_allDigits 2 m hm) hc) (by decide)),
      splitOnChar_no_sep '/' _
        (fun c hc => digit_ne_of c '/' (allDigits_mem _ c (fmtInt_allDigits 2 d hd) hc) (by decide))]
  have hparse : tryParseDate (fmtInt 4 y ++ '/' :: (fmtInt 2 m ++ '/' :: fmtInt 2 d)) =
      some (fmtInt 4 y ++ '/' :: (fmtInt 2 m ++ '/' :: fmtInt 2 d)) := by
    unfold tryParseDate
    rw [if_pos ?hslash]
    case hslash =>
      apply List.any_eq_true.mpr
      exact ⟨'/', List.mem_append.mpr (Or.inr (List.mem_cons_self _ _)), by simp⟩
    rw [hsplit]
    simp only [pyInt_fmtInt 4 y hy, pyInt_fmtInt 2 m hm, pyInt_fmtInt 2 d hd]
  unfold force_standardize_date
  rw [hstrip, if_neg hone, hcond, hparse]

theorem force_standardize_unparsed (x : Str) (h0 : stripWS x ≠ [])
    (hp : tryParseDate (condDashRepl (stripWS x)) = none) :
    force_standardize_date x = condDashRepl (stripWS x) := by
  unfold force_standardize_date
  rw [if_neg h0, hp]

theorem force_standardize_unparsed_fix (x : Str) (h0 : stripWS x ≠ [])
    (hp : tryParseDate (condDashRepl (stripWS x)) = none) :
    force_standardize_date (condDashRepl (stripWS x)) = condDashRepl (stripWS x) := by
  have hstrip := stripWS_condDashRepl x
  have hne := condDashRepl_ne_nil x h0
  have hcond := condDashRepl_eq_self (condDashRepl (stripWS x)) (condDashRepl_no_dash (stripWS x))
  unfold force_standardize_date
  rw [hstrip, if_neg hne, hcond, hp]

/-- C5: force_standardize_date is idempotent on every input string,
including already-canonical dates, unparseable text, the empty string and
whitespace-only strings. -/
theorem c5_standardize_idempotent (x : Str) :
    force_standardize_date (force_standardize_date x) = force_standardize_date x := by
  by_cases h0 : stripWS x = []
  · have hx : force_standardize_date x = x := by
      unfold force_standardize_date
      rw [if_pos h0]
    rw [hx]
    exact hx
  · cases hp : tryParseDate (condDashRepl (stripWS x)) with
    | some o =>
      have hfx : force_standardize_date x = o := by
        unfold force_standardize_date
        rw [if_neg h0, hp]
      have hnd := condDashRepl_no_dash (stripWS x)
      unfold tryParseDate at hp
      split at hp
      · split at hp
        · next p1 p2 p3 heq =>
          split at hp
          · next y m d hpy hpm hpd =>
            injection hp with ho
            have hy : 0 ≤ y := pyInt_nonneg p1
              (fun c hc => hnd c (splitOnChar_parts_mem '/' _ p1 (by rw [heq]; simp) c hc)) y hpy
            have hm : 0 ≤ m := pyInt_nonneg p2
              (fun c hc => hnd c (splitOnChar_parts_mem '/' _ p2 (by rw [heq]; simp) c hc)) m hpm
            have hd : 0 ≤ d := pyInt_nonneg p3
              (fun c hc => hnd c (splitOnChar_parts_mem '/' _ p3 (by rw [heq]; simp) c hc)) d hpd
            rw [hfx, ← ho]
            exact force_standardize_fmt_triple y m d hy hm hd
          · exact absurd hp (by simp)
        · exact absurd hp (by simp)
      · exact absurd hp (by simp)
    | none =>
      rw [force_standardize_unparsed x h0 hp]
      exact force_standardize_unparsed_fix x h0 hp

/-- C9 counterexample: the input 2025-3 does not split into three
integer-parseable parts after dash replacement (it has only two parts),
yet force_standardize_date returns 2025/3, which differs from the input;
unparseable input therefore does not pass through unchanged. -/
theorem c9_counterexample :
    force_standardize_date (str "2025-3") = str "2025/3" ∧
      str "2025/3" ≠ str "2025-3" ∧
      (splitOnChar '/' (replDash (str "2025-3"))).length = 2 := by
  refine ⟨?_, ?_, ?_⟩ <;> decide

/-- C9 amended: empty or whitespace-only input is returned unchanged; any
other input that does not parse as a three-part integer date is returned
with surrounding whitespace stripped and dashes replaced by slashes; in
particular an unparseable input with no dash and no surrounding
whitespace is returned unchanged. -/
theorem c9_amended_passthrough (x : Str) :
    (stripWS x = [] → force_standardize_date x = x) ∧
      (stripWS x ≠ [] → tryParseDate (condDashRepl (stripWS x)) = none →
        force_standardize_date x = condDashRepl (stripWS x)) ∧
      (stripWS x = x → (∀ c ∈ x, c ≠ '-') → tryParseDate x = none →
        force_standardize_date x = x) := by
  refine ⟨?_, force_standardize_unparsed x, ?_⟩
  · intro h0
    unfold force_standardize_date
    rw [if_pos h0]
  · intro hs hnd hp
    by_cases h0 : stripWS x = []
    · unfold force_standardize_date
      rw [if_pos h0]
    · have hcond : condDashRepl (stripWS x) = x := by
        rw [hs]
        exact condDashRepl_eq_self x hnd
      have hfin := force_standardize_unparsed x h0 (by rw [hcond]; exact hp)
      rw [hfin, hcond]

/-- Witness for C9's amended claim at a concrete unparseable input. -/
theorem c9_witness : force_standardize_date (str "abc") = str "abc" :=
  (c9_amended_passthrough (str "abc")).2.2 (by decide) (by decide) (by decide)

/-- Prefix test on character lists (Python str.startswith). -/
def isPrefixC : Str → Str → Bool
  | [], _ => true
  | _ :: _, [] => false
  | p :: ps, c :: cs => decide (p = c) && isPrefixC ps cs

/-- Substring containment, Python `in` on strings: some position of the
text starts with the pattern. -/
def containsSub : Str → Str → Bool
  | [], pat => isPrefixC pat []
  | c :: cs, pat => isPrefixC pat (c :: cs) || containsSub cs pat

/-- Python str.lower on ASCII characters. -/
def pyLower (c : Char) : Char :=
  if 65 ≤ c.toNat ∧ c.toNat ≤ 90 then Char.ofNat (c.toNat + 32) else c

/-- Python str.lower over a string. -/
def toLowerStr (s : Str) : Str := s.map pyLower

/-- The DAU filename classifier of process_dau_files: the lowercased name
must contain dau, the name must start with dau_ and have length above 7,
and the three characters at offsets 4 to 7 must name a known channel;
otherwise the file is skipped. -/
def classify_dau (f : Str) : Option Str :=
  if containsSub (toLowerStr f) (str "dau") = false then none
  else if 7 < f.length ∧ isPrefixC (str "dau_") f = true then
    if (f.drop 4).take 3 = str "mvp" ∨ (f.drop 4).take 3 = str "and" ∨
        (f.drop 4).take 3 = str "ios" then
      some ((f.drop 4).take 3)
    else none
  else none

/-- C6: the classifier assigns channel ch exactly when the lowercased
filename contains dau, the filename starts with the literal prefix dau_,
its length is at least 8, and ch is the 3-character slice at offsets 4 to
7 and is one of mvp, and, ios; filenames shorter than 8 characters, not
prefixed dau_, or with a slice outside that set are rejected. -/
theorem c6_dau_filename_classifier (f : Str) (ch : Str) :
    classify_dau f = some ch ↔
      (containsSub (toLowerStr f) (str "dau") = true ∧
        isPrefixC (str "dau_") f = true ∧ 8 ≤ f.length ∧
        ch = (f.drop 4).take 3 ∧
        (ch = str "mvp" ∨ ch = str "and" ∨ ch = str "ios")) := by
  unfold classify_dau
  constructor
  · intro h
    split at h
    · exact absurd h (by simp)
    · next hdau =>
      have hdau2 : containsSub (toLowerStr f) (str "dau") = true := by
        revert hdau
        cases containsSub (toLowerStr f) (str "dau") <;> simp
      split at h
      · next hpre =>
        split at h
        · next hch =>
          injection h with h1
          subst h1
          exact ⟨hdau2, hpre.2, by omega, rfl, hch⟩
        · exact absurd h (by simp)
      · exact absurd h (by simp)
  · rintro ⟨h1, h2, h3, h4, h5⟩
    subst h4
    rw [if_neg (by rw [h1]; simp), if_pos ⟨by omega, h2⟩, if_pos h5]

/-- Witness for C6 at a well-formed mvp filename. -/
theorem c6_witness : classify_dau (str "dau_mvp_3.17.csv") = some (str "mvp") :=
  (c6_dau_filename_classifier (str "dau_mvp_3.17.csv") (str "mvp")).mpr (by decide)

/-- Python replace of the 4-character pattern `.csv` by the empty string,
scanning left to right over non-overlapping occurrences; the fuel
argument starts at the length of the text and never runs out. -/
def removeCsvFuel : Nat → Str → Str
  | 0, s => s
  | _ + 1, [] => []
  | fuel + 1, c :: cs =>
    if isPrefixC (str ".csv") (c :: cs) then removeCsvFuel fuel (cs.drop 3)
    else c :: removeCsvFuel fuel cs

/-- Python `text.replace(".csv", "")`. -/
def removeCsv (s : Str) : Str := removeCsvFuel s.length s

/-- Last element of a split, Python `split(...)[-1]`. -/
def lastPart : List Str → Str
  | [] => []
  | [p] => p
  | _ :: p :: ps => lastPart (p :: ps)

/-- The text the date is read from: after the last underscore, with
`.csv` removed. -/
def dauDatePart (f : Str) : Str := removeCsv (lastPart (splitOnChar '_' f))

/-- The regex attempt of `(\d+)\.(\d+)` anchored at the start of s: the
greedy digit run, then a dot, then a nonempty greedy digit run; shorter
first runs cannot rescue a failure because the character after them is a
digit, never a dot. -/
def ddAt (s : Str) : Option (Str × Str) :=
  match s.dropWhile isDigitC with
  | d :: rest2 =>
    if d = '.' ∧ rest2.takeWhile isDigitC ≠ [] then
      some (s.takeWhile isDigitC, rest2.takeWhile isDigitC)
    else none
  | [] => none

/-- `re.search` of `(\d+)\.(\d+)`: try each position left to right and
return the first match's two digit groups. -/
def findDD : Str → Option (Str × Str)
  | [] => none
  | c :: cs =>
    if isDigitC c then
      match ddAt (c :: cs) with
      | some r => some r
      | none => findDD cs
    else findDD cs

/-- The embedded-date extraction of process_dau_files: the first
digits-dot-digits match in the date part yields 2025/month/day; with no
match the date part itself is used. -/
def extract_dau_date (f : Str) : Str :=
  match findDD (dauDatePart f) with
  | some (m, d) => str "2025/" ++ (m ++ '/' :: d)
  | none => dauDatePart f

theorem allDigits_takeWhile (l : Str) : allDigits (l.takeWhile isDigitC) = true := by
  simp only [allDigits, List.all_eq_true]
  intro c hc
  exact List.mem_takeWhile_imp hc

theorem dropWhile_append_of_all (p : Char → Bool) (m r : Str) (h : ∀ c ∈ m, p c = true) :
    (m ++ r).dropWhile p = r.dropWhile p := by
  induction m with
  | nil => rfl
  | cons c cs ih =>
    rw [List.cons_append, List.dropWhile_cons, if_pos (h c (by simp))]
    exact ih (fun x hx => h x (by simp [hx]))

theorem ddAt_some (s m d : Str) (h : ddAt s = some (m, d)) :
    m = s.takeWhile isDigitC ∧ allDigits d = true ∧ d ≠ [] ∧
      ∃ b, s = m ++ '.' :: (d ++ b) := by
  unfold ddAt at h
  split at h
  · next dd rest2 heq =>
    split at h
    · next hcond =>
      injection h with h1
      have hm : m = s.takeWhile isDigitC := by
        have := congrArg Prod.fst h1
        simpa using this.symm
      have hdeq : d = rest2.takeWhile isDigitC := by
        have := congrArg Prod.snd h1
        simpa using this.symm
      refine ⟨hm, by rw [hdeq]; exact allDigits_takeWhile rest2, by rw [hdeq]; exact hcond.2,
        rest2.dropWhile isDigitC, ?_⟩
      rw [hm, hdeq, List.takeWhile_append_dropWhile]
      conv_lhs => rw [← List.takeWhile_append_dropWhile isDigitC s]
      rw [heq, hcond.1]
    · exact absurd h (by simp)
  · exact absurd h (by simp)

theorem ddAt_of_shape (m d b : Str) (hm : allDigits m = true) (hd : d ≠ [])
    (had : allDigits d = true) :
    ddAt (m ++ '.' :: (d ++ b)) ≠ none := by
  have hdrop : (m ++ '.' :: (d ++ b)).dropWhile isDigitC = '.' :: (d ++ b) := by
    rw [dropWhile_append_of_all isDigitC m _ (fun c hc => allDigits_mem m c hm hc)]
    rw [List.dropWhile_cons, if_neg (by decide)]
  have htake : (d ++ b).takeWhile isDigitC ≠ [] := by
    cases d with
    | nil => exact absurd rfl hd
    | cons c cs =>
      obtain ⟨hc, _⟩ := allDigits_cons c cs had
      rw [List.cons_append, List.takeWhile_cons, if_pos hc]
      simp
  unfold ddAt
  split
  · next dd rest2 heq2 =>
    rw [hdrop] at heq2
    injection heq2 with h1 h2
    rw [if_pos ⟨h1.symm, by rw [← h2]; exact htake⟩]
    simp
  · next heq2 =>
    rw [hdrop] at heq2
    exact absurd heq2 (by simp)

theorem findDD_some (t : Str) : ∀ m d, findDD t = some (m, d) →
    m ≠ [] ∧ d ≠ [] ∧ allDigits m = true ∧ allDigits d = true ∧
      ∃ a b, t = a ++ m ++ '.' :: (d ++ b) := by
  induction t with
  | nil => intro m d h; exact absurd h (by simp [findDD])
  | cons c cs ih =>
    intro m d h
    unfold findDD at h
    by_cases hc : isDigitC c = true
    · rw [if_pos hc] at h
      cases hda : ddAt (c :: cs) with
      | some r =>
        rw [hda] at h
        have h2 : some r = some (m, d) := h
        have hr : r = (m, d) := by injection h2
        subst hr
        obtain ⟨hm, had, hdne, b, hshape⟩ := ddAt_some (c :: cs) m d hda
        have hmne : m ≠ [] := by
          rw [hm, List.takeWhile_cons, if_pos hc]
          simp
        have ham : allDigits m = true := by rw [hm]; exact allDigits_takeWhile _
        exact ⟨hmne, hdne, ham, had, [], b, by simp [hshape]⟩
      | none =>
        rw [hda] at h
        have h2 : findDD cs = some (m, d) := h
        obtain ⟨hmne, hdne, ham, had, a, b, hshape⟩ := ih m d h2
        exact ⟨hmne, hdne, ham, had, c :: a, b, by simp [hshape]⟩
    · rw [if_neg hc] at h
      obtain ⟨hmne, hdne, ham, had, a, b, hshape⟩ := ih m d h
      exact ⟨hmne, hdne, ham, had, c :: a, b, by simp [hshape]⟩

theorem findDD_of_decomp (a : Str) : ∀ m d b : Str, m ≠ [] → d ≠ [] →
    allDigits m = true → allDigits d = true →
    findDD (a ++ m ++ '.' :: (d ++ b)) ≠ none := by
  induction a with
  | nil =>
    intro m d b hm hd ham had
    cases m with
    | nil => exact absurd rfl hm
    | cons c ms =>
      obtain ⟨hc, _⟩ := allDigits_cons c ms ham
      have hshape : ([] : Str) ++ (c :: ms) ++ '.' :: (d ++ b) =
          c :: (ms ++ '.' :: (d ++ b)) := by simp
      rw [hshape]
      have hdd : ddAt (c :: (ms ++ '.' :: (d ++ b))) ≠ none := by
        have hb := ddAt_of_shape (c :: ms) d b ham hd had
        simpa using hb
      unfold findDD
      rw [if_pos hc]
      cases hda : ddAt (c :: (ms ++ '.' :: (d ++ b))) with
      | some r =>
        show some r ≠ none
        simp
      | none => exact absurd hda hdd
  | cons x a2 ih =>
    intro m d b hm hd ham had
    have htail : findDD (a2 ++ m ++ '.' :: (d ++ b)) ≠ none := ih m d b hm hd ham had
    have hstep : (x :: a2) ++ m ++ '.' :: (d ++ b) = x :: (a2 ++ m ++ '.' :: (d ++ b)) := by
      simp
    rw [hstep]
    unfold findDD
    by_cases hx : isDigitC x = true
    · rw [if_pos hx]
      cases hda : ddAt (x :: (a2 ++ m ++ '.' :: (d ++ b))) with
      | some r =>
        show some r ≠ none
        simp
      | none =>
        show findDD (a2 ++ m ++ '.' :: (d ++ b)) ≠ none
        exact htail
    · rw [if_neg hx]
      exact htail

/-- C7 counterexample: for dau_ios_x.csv the date part is x, which
contains no digits-dot-digits pattern, and the extracted value is x — not
the claimed fixed fallback 2025/1/1. -/
theorem c7_counterexample :
    findDD (dauDatePart (str "dau_ios_x.csv")) = none ∧
      extract_dau_date (str "dau_ios_x.csv") = str "x" ∧
      str "x" ≠ str "2025/1/1" := by
  refine ⟨?_, ?_, ?_⟩ <;> decide

/-- C7 amended: the extraction takes the text after the last underscore
with `.csv` removed and searches it for the first digits-dot-digits
pattern; on a match it emits 2025/month/day from the matched digit
groups; when that text contains no digits-dot-digits occurrence at all
the extracted value is the text itself — the fixed fallback 2025/1/1 is
only the unreachable exception branch. -/
theorem c7_amended_date_extraction (f : Str) :
    (∃ m d a b, m ≠ [] ∧ d ≠ [] ∧ allDigits m = true ∧ allDigits d = true ∧
        dauDatePart f = a ++ m ++ '.' :: (d ++ b) ∧
        extract_dau_date f = str "2025/" ++ (m ++ '/' :: d)) ∨
      ((¬ ∃ m d a b, m ≠ [] ∧ d ≠ [] ∧ allDigits m = true ∧ allDigits d = true ∧
          dauDatePart f = a ++ m ++ '.' :: (d ++ b)) ∧
        extract_dau_date f = dauDatePart f) := by
  cases hdd : findDD (dauDatePart f) with
  | some r =>
    obtain ⟨m, d⟩ := r
    left
    obtain ⟨hmne, hdne, ham, had, a, b, hshape⟩ := findDD_some (dauDatePart f) m d hdd
    exact ⟨m, d, a, b, hmne, hdne, ham, had, hshape, by unfold extract_dau_date; rw [hdd]⟩
  | none =>
    right
    constructor
    · rintro ⟨m, d, a, b, hm, hd, ham, had, hshape⟩
      exact findDD_of_decomp a m d b hm hd ham had (by rw [← hshape]; exact hdd)
    · unfold extract_dau_date
      rw [hdd]

/-- A pandas table is modelled one row at a time as an association list
from column names to cell values; the key order is the column order.  The
same structure with table values models a Python dict keyed by strings. -/
abbrev Tbl (α : Type) := List (String × α)

/-- Column names in order (`df.columns`). -/
def keysT {α : Type} (t : Tbl α) : List String := t.map Prod.fst

/-- Column membership (`c in df.columns`). -/
def hasColT {α : Type} (t : Tbl α) (c : String) : Bool :=
  t.any (fun p => decide (p.1 = c))

/-- First value stored under a column name. -/
def getColT {α : Type} : Tbl α → String → Option α
  | [], _ => none
  | (k, v) :: t, c => if k = c then some v else getColT t c

/-- Pandas column assignment `df[c] = v` (also dict assignment): the
column is overwritten in place when present, otherwise appended last. -/
def setColT {α : Type} (t : Tbl α) (c : String) (v : α) : Tbl α :=
  if hasColT t c then t.map (fun p => if p.1 = c then (c, v) else p) else t ++ [(c, v)]

/-- Membership in a list of column names (`x in list`). -/
def memS (c : String) (l : List String) : Bool := l.any (fun x => decide (x = c))

/-- Pandas reindexing `df[cols]`: selects the columns in the given order,
failing like pandas when a requested column is absent; the default value
is never read on success. -/
def reindexT {α : Type} (dflt : α) (cols : List String) (t : Tbl α) : Option (Tbl α) :=
  if cols.all (fun c => hasColT t c) then
    some (cols.map (fun c => (c, (getColT t c).getD dflt)))
  else none

theorem memS_iff (c : String) (l : List String) : memS c l = true ↔ c ∈ l := by
  simp [memS, List.any_eq_true]

theorem hasColT_iff {α : Type} (t : Tbl α) (c : String) :
    hasColT t c = true ↔ c ∈ keysT t := by
  simp [hasColT, keysT, List.any_eq_true, List.mem_map]

theorem hasColT_eq {α : Type} (t : Tbl α) (c : String) :
    hasColT t c = (getColT t c).isSome := by
  induction t with
  | nil => rfl
  | cons p t ih =>
    obtain ⟨k, w⟩ := p
    by_cases hk : k = c
    · subst hk
      simp [hasColT, getColT]
    · simp only [hasColT, List.any_cons, getColT, if_neg hk]
      rw [decide_eq_false hk]
      simpa [hasColT] using ih

theorem getColT_none_of_not_has {α : Type} (t : Tbl α) (c : String)
    (h : hasColT t c = false) : getColT t c = none := by
  rw [hasColT_eq] at h
  cases hg : getColT t c
  · rfl
  · rw [hg] at h
    simp at h

theorem getColT_some_has {α : Type} (t : Tbl α) (c : String) (v : α)
    (h : getColT t c = some v) : hasColT t c = true := by
  rw [hasColT_eq, h]
  rfl

theorem getColT_append_of_none {α : Type} (t u : Tbl α) (c : String)
    (h : getColT t c = none) : getColT (t ++ u) c = getColT u c := by
  induction t with
  | nil => rfl
  | cons p t ih =>
    obtain ⟨k, w⟩ := p
    by_cases hk : k = c
    · simp [getColT, hk] at h
    · simp only [getColT, if_neg hk] at h
      simp only [List.cons_append, getColT, if_neg hk]
      exact ih h

theorem getColT_append_of_some {α : Type} (t u : Tbl α) (c : String) (v : α)
    (h : getColT t c = some v) : getColT (t ++ u) c = some v := by
  induction t with
  | nil => simp [getColT] at h
  | cons p t ih =>
    obtain ⟨k, w⟩ := p
    by_cases hk : k = c
    · simp only [getColT, if_pos hk] at h
      simp only [List.cons_append, getColT, if_pos hk]
      exact h
    · simp only [getColT, if_neg hk] at h
      simp only [List.cons_append, getColT, if_neg hk]
      exact ih h

theorem getColT_set_self {α : Type} (t : Tbl α) (c : String) (v : α) :
    getColT (setColT t c v) c = some v := by
  unfold setColT
  split
  · next h =>
    induction t with
    | nil => simp [hasColT] at h
    | cons p t ih =>
      obtain ⟨k, w⟩ := p
      rw [List.map_cons]
      by_cases hk : k = c
      · rw [if_pos hk]
        simp [getColT]
      · rw [if_neg hk]
        simp only [getColT, if_neg hk]
        apply ih
        simp only [hasColT, List.any_cons, decide_eq_false hk, Bool.false_or] at h
        exact h
  · next h =>
    rw [getColT_append_of_none t _ c
      (getColT_none_of_not_has t c (by revert h; cases hasColT t c <;> simp))]
    simp [getColT]

theorem getColT_set_other {α : Type} (t : Tbl α) (c c2 : String) (v : α) (hne : c2 ≠ c) :
    getColT (setColT t c v) c2 = getColT t c2 := by
  have hcc : ¬ (c = c2) := Ne.symm hne
  unfold setColT
  split
  · next h =>
    clear h
    induction t with
    | nil => rfl
    | cons p t ih =>
      obtain ⟨k, w⟩ := p
      rw [List.map_cons]
      by_cases hk : k = c
      · subst hk
        rw [if_pos rfl]
        simp only [getColT, if_neg hcc]
        exact ih
      · rw [if_neg hk]
        simp only [getColT]
        by_cases hk2 : k = c2
        · rw [if_pos hk2, if_pos hk2]
        · rw [if_neg hk2, if_neg hk2]
          exact ih
  · cases hg : getColT t c2 with
    | some w => exact getColT_append_of_some t _ c2 w hg
    | none =>
      rw [getColT_append_of_none t _ c2 hg]
      simp only [getColT, if_neg hcc]

theorem hasColT_set_other {α : Type} (t : Tbl α) (c c2 : String) (v : α) (hne : c2 ≠ c) :
    hasColT (setColT t c v) c2 = hasColT t c2 := by
  rw [hasColT_eq, hasColT_eq, getColT_set_other t c c2 v hne]

theorem getColT_filter_key {α : Type} (q : String → Bool) (t : Tbl α) (c : String) :
    getColT (t.filter (fun p => q p.1)) c = if q c then getColT t c else none := by
  induction t with
  | nil => cases hq : q c <;> simp [getColT]
  | cons p t ih =>
    obtain ⟨k, w⟩ := p
    by_cases hk : k = c
    · subst hk
      cases hq : q k with
      | true => simp [List.filter_cons, hq, getColT, ih]
      | false => simp [List.filter_cons, hq, getColT, ih]
    · cases hq : q k with
      | true => simp [List.filter_cons, hq, getColT, if_neg hk, ih]
      | false => simp [List.filter_cons, hq, getColT, if_neg hk, ih]

theorem hasColT_filter_key {α : Type} (q : String → Bool) (t : Tbl α) (c : String) :
    hasColT (t.filter (fun p => q p.1)) c = (hasColT t c && q c) := by
  rw [hasColT_eq, hasColT_eq, getColT_filter_key]
  cases hq : q c
  · rw [Bool.and_false]
    rfl
  · rw [Bool.and_true]
    rfl

theorem getColT_foldl_set_not_mem {α : Type} (v0 : α) (ms : List String) :
    ∀ (t : Tbl α) (c : String), c ∉ ms →
      getColT (ms.foldl (fun a c2 => setColT a c2 v0) t) c = getColT t c := by
  induction ms with
  | nil => intro t c _; rfl
  | cons m ms ih =>
    intro t c hc
    have hne : c ≠ m := fun h => hc (h ▸ List.mem_cons_self m ms)
    have hnm : c ∉ ms := fun h => hc (List.mem_cons_of_mem m h)
    rw [List.foldl_cons, ih (setColT t m v0) c hnm, getColT_set_other t m c v0 hne]

theorem getColT_foldl_set_mem {α : Type} (v0 : α) (ms : List String) :
    ∀ (t : Tbl α) (c : String), c ∈ ms →
      getColT (ms.foldl (fun a c2 => setColT a c2 v0) t) c = some v0 := by
  induction ms with
  | nil => intro t c hc; simp at hc
  | cons m ms ih =>
    intro t c hc
    rw [List.foldl_cons]
    by_cases hm : c ∈ ms
    · exact ih (setColT t m v0) c hm
    · have hcm : c = m := by
        rcases List.mem_cons.mp hc with h | h
        · exact h
        · exact absurd h hm
      subst hcm
      rw [getColT_foldl_set_not_mem v0 ms (setColT t c v0) c hm, getColT_set_self]

theorem hasColT_foldl_set {α : Type} (v0 : α) (ms : List String) (t : Tbl α) (c : String)
    (h : hasColT t c = true ∨ c ∈ ms) :
    hasColT (ms.foldl (fun a c2 => setColT a c2 v0) t) c = true := by
  by_cases hm : c ∈ ms
  · rw [hasColT_eq, getColT_foldl_set_mem v0 ms t c hm]
    rfl
  · rcases h with h | h
    · rw [hasColT_eq, getColT_foldl_set_not_mem v0 ms t c hm, ← hasColT_eq]
      exact h
    · exact absurd h hm

theorem keysT_map_mk {α : Type} (cols : List String) (g : String → α) :
    keysT (cols.map (fun c => (c, g c))) = cols := by
  unfold keysT
  rw [List.map_map]
  have hid : (Prod.fst ∘ fun c => ((c, g c) : String × α)) = id := by
    funext a
    rfl
  rw [hid, List.map_id]

theorem getColT_map_mk {α : Type} (cols : List String) (g : String → α) (c : String)
    (hc : c ∈ cols) : getColT (cols.map (fun c => (c, g c))) c = some (g c) := by
  induction cols with
  | nil => simp at hc
  | cons a cols ih =>
    by_cases ha : a = c
    · subst ha
      simp [getColT]
    · rcases List.mem_cons.mp hc with h | h
      · exact absurd h.symm ha
      · simp only [List.map_cons, getColT, if_neg ha]
        exact ih h

/-- A DAU table: one row of string-valued cells per column. -/
abbrev STable := Tbl String

/-- One step of the per-channel column standardization in
process_dau_files: the first table seen fixes the standard column list;
a later table with a different column list gets every missing standard
column filled with the sentinel, every extra column dropped, and is then
reindexed onto the standard list; reindexing failure (impossible, but a
pandas KeyError in general) would make the file be skipped. -/
def reconcileStep (std : Option (List String)) (t : STable) :
    Option (List String) × Option STable :=
  match std with
  | none => (some (keysT t), some t)
  | some s =>
    if keysT t = s then (some s, some t)
    else
      (some s, reindexT "N/A" s
        (((s.filter (fun c => !(hasColT t c))).foldl
            (fun acc c => setColT acc c "N/A") t).filter
          (fun p => !(memS p.1 ((keysT t).filter (fun c => !(memS c s)))))))

/-- The per-file accumulation of process_dau_files for one channel:
thread the standard-column slot and append each successfully reconciled
table. -/
def batchStep (acc : Option (List String) × List STable) (t : STable) :
    Option (List String) × List STable :=
  match reconcileStep acc.1 t with
  | (std2, some u) => (std2, acc.2 ++ [u])
  | (std2, none) => (std2, acc.2)

/-- The ordered batch of one channel's DAU tables, reconciled. -/
def processBatch (ts : List STable) : List STable :=
  (ts.foldl batchStep ((none : Option (List String)), ([] : List STable))).2

theorem reconcileStep_fst (s : List String) (t : STable) :
    (reconcileStep (some s) t).1 = some s := by
  simp only [reconcileStep]
  split <;> rfl

theorem reconcileStep_spec (s : List String) (t : STable) :
    ∃ u, (reconcileStep (some s) t).2 = some u ∧ keysT u = s ∧
      (∀ c, c ∈ s → hasColT t c = false → getColT u c = some "N/A") ∧
      (∀ c v, c ∈ s → getColT t c = some v → getColT u c = some v) := by
  simp only [reconcileStep]
  by_cases he : keysT t = s
  · rw [if_pos he]
    refine ⟨t, rfl, he, ?_, ?_⟩
    · intro c hc hfalse
      exfalso
      rw [← he] at hc
      rw [(hasColT_iff t c).mpr hc] at hfalse
      exact Bool.noConfusion hfalse
    · intro c v _ hv
      exact hv
  · rw [if_neg he]
    set missing := s.filter (fun c => !(hasColT t c)) with hmissing
    set extra := (keysT t).filter (fun c => !(memS c s)) with hextra
    set t1 := missing.foldl (fun acc c => setColT acc c "N/A") t with ht1
    set t2 := t1.filter (fun p => !(memS p.1 extra)) with ht2
    have hmem_missing : ∀ c, c ∈ missing ↔ (c ∈ s ∧ hasColT t c = false) := by
      intro c
      rw [hmissing, List.mem_filter]
      simp
    have hnot_extra : ∀ c, c ∈ s → (!(memS c extra)) = true := by
      intro c hc
      cases hms : memS c extra
      · rfl
      · exfalso
        have hmem := (memS_iff c extra).mp hms
        rw [hextra, List.mem_filter] at hmem
        have h2 := hmem.2
        have h3 : memS c s = true := (memS_iff c s).mpr hc
        rw [h3] at h2
        exact Bool.noConfusion h2
    have hfill : ∀ c, c ∈ s → hasColT t c = false → getColT t2 c = some "N/A" := by
      intro c hc hfalse
      have hcm : c ∈ missing := (hmem_missing c).mpr ⟨hc, hfalse⟩
      have h1 : getColT t1 c = some "N/A" := by
        rw [ht1]
        exact getColT_foldl_set_mem _ missing t c hcm
      rw [ht2, getColT_filter_key (fun x => !(memS x extra)) t1 c,
        if_pos (hnot_extra c hc)]
      exact h1
    have hpres : ∀ c v, c ∈ s → getColT t c = some v → getColT t2 c = some v := by
      intro c v hc hv
      have hhas : hasColT t c = true := getColT_some_has t c v hv
      have hcnm : c ∉ missing := by
        intro hcm
        have h2 := ((hmem_missing c).mp hcm).2
        rw [hhas] at h2
        exact Bool.noConfusion h2
      have h1 : getColT t1 c = some v := by
        rw [ht1, getColT_foldl_set_not_mem _ missing t c hcnm]
        exact hv
      rw [ht2, getColT_filter_key (fun x => !(memS x extra)) t1 c,
        if_pos (hnot_extra c hc)]
      exact h1
    have hall : ∀ c ∈ s, hasColT t2 c = true := by
      intro c hc
      by_cases hh : hasColT t c = true
      · rw [hasColT_eq] at hh
        cases hg : getColT t c with
        | none => rw [hg] at hh; exact Bool.noConfusion hh
        | some v => exact getColT_some_has t2 c v (hpres c v hc hg)
      · have hf : hasColT t c = false := by revert hh; cases hasColT t c <;> simp
        exact getColT_some_has t2 c _ (hfill c hc hf)
    have hreindex : reindexT "N/A" s t2 =
        some (s.map (fun c => (c, (getColT t2 c).getD "N/A"))) := by
      unfold reindexT
      rw [if_pos (List.all_eq_true.mpr hall)]
    refine ⟨s.map (fun c => (c, (getColT t2 c).getD "N/A")), ?_, keysT_map_mk s _, ?_, ?_⟩
    · show reindexT "N/A" s t2 = _
      exact hreindex
    · intro c hc hfalse
      rw [getColT_map_mk s _ c hc, hfill c hc hfalse]
      rfl
    · intro c v hc hv
      rw [getColT_map_mk s _ c hc, hpres c v hc hv]
      rfl

theorem batchStep_some (s : List String) (acc2 : List STable) (t : STable) :
    ∃ u, batchStep (some s, acc2) t = (some s, acc2 ++ [u]) ∧ keysT u = s := by
  obtain ⟨u, hu, hk, _, _⟩ := reconcileStep_spec s t
  have hfst := reconcileStep_fst s t
  have hpair : reconcileStep (some s) t = (some s, some u) := by
    rcases hr : reconcileStep (some s) t with ⟨a, b⟩
    rw [hr] at hfst hu
    simp only at hfst hu
    rw [hfst, hu]
  refine ⟨u, ?_, hk⟩
  unfold batchStep
  rw [hpair]

theorem processBatch_aux (ts : List STable) : ∀ (s0 : List String) (acc2 : List STable),
    (∀ u ∈ acc2, keysT u = s0) →
    ∀ u ∈ (ts.foldl batchStep (some s0, acc2)).2, keysT u = s0 := by
  induction ts with
  | nil =>
    intro s0 acc2 hinv u hu
    exact hinv u hu
  | cons t ts ih =>
    intro s0 acc2 hinv u hu
    rw [List.foldl_cons] at hu
    obtain ⟨w, hstep, hkw⟩ := batchStep_some s0 acc2 t
    rw [hstep] at hu
    refine ih s0 (acc2 ++ [w]) ?_ u hu
    intro x hx
    rcases List.mem_append.mp hx with h1 | h1
    · exact hinv x h1
    · rw [List.mem_singleton.mp h1]
      exact hkw

/-- C1: schema reconciliation within one channel is first-seen-wins.  The
first table of the batch fixes the standard column list, and every table
emerging from the batch has exactly that column list, in that order,
whatever the later tables' columns were; moreover one reconciliation step
onto a standard list s always succeeds, produces exactly the columns s in
order, fills each standard column missing from the table with the
sentinel value, and keeps the values of the standard columns that were
present (extra columns are dropped, as no column outside s survives). -/
theorem c1_schema_first_seen_wins :
    (∀ (t : STable) (ts : List STable), ∀ u ∈ processBatch (t :: ts), keysT u = keysT t) ∧
      (∀ (s : List String) (t : STable), ∃ u, (reconcileStep (some s) t).2 = some u ∧
        keysT u = s ∧
        (∀ c, c ∈ s → hasColT t c = false → getColT u c = some "N/A") ∧
        (∀ c v, c ∈ s → getColT t c = some v → getColT u c = some v)) := by
  constructor
  · intro t ts u hu
    unfold processBatch at hu
    rw [List.foldl_cons] at hu
    have hfirst : batchStep ((none : Option (List String)), ([] : List STable)) t =
        (some (keysT t), [t]) := rfl
    rw [hfirst] at hu
    refine processBatch_aux ts (keysT t) [t] ?_ u hu
    intro x hx
    rw [List.mem_singleton.mp hx]
  · exact reconcileStep_spec

/-- First example table of the C1 witness batch. -/
def c1ex1 : STable := [("A", "1"), ("B", "2")]

/-- Second example table of the C1 witness batch, with different columns. -/
def c1ex2 : STable := [("B", "3"), ("C", "4")]

/-- Witness for C1: a two-table batch whose second table has columns B, C
still comes out with both tables on the first table's columns A, B. -/
theorem c1_witness :
    (processBatch [c1ex1, c1ex2]).length = 2 ∧
      ∀ u ∈ processBatch [c1ex1, c1ex2], keysT u = ["A", "B"] :=
  ⟨by decide, fun u hu => by
    have h := c1_schema_first_seen_wins.1 c1ex1 [c1ex2] u hu
    rw [h]
    rfl⟩

/-- The hard-coded 14-column iOS DAU whitelist, order significant. -/
def expectedIosColumns : List String :=
  ["date", "Country", "Impressions", "Clicks", "Installs", "Conversion Rate",
   "Activity Sessions", "Cost", "Activity Revenue", "Average eCPIUS$2.31",
   "Average DAU", "Average MAU", "Average DAU/MAU Rate", "ARPDAU"]

/-- The final iOS pass of process_dau_files: drop every column outside
the whitelist, create each absent whitelisted column filled with the
sentinel, and reindex onto the whitelist order. -/
def iosFinalize (t : STable) : Option STable :=
  reindexT "N/A" expectedIosColumns
    (((expectedIosColumns.filter (fun c =>
        !(hasColT (t.filter (fun p =>
          !(memS p.1 ((keysT t).filter (fun c2 => !(memS c2 expectedIosColumns)))))) c))).foldl
      (fun acc c => setColT acc c "N/A")
      (t.filter (fun p =>
        !(memS p.1 ((keysT t).filter (fun c2 => !(memS c2 expectedIosColumns))))))))

/-- C2: the merged iOS DAU table always has exactly the 14 whitelisted
columns in the fixed order: the finalization pass never fails, its output
columns are exactly the whitelist in order, every whitelisted column
absent from the input is created filled with the sentinel, every
whitelisted column present keeps its value, and no other column
survives. -/
theorem c2_ios_dau_whitelist (t : STable) :
    ∃ u, iosFinalize t = some u ∧ keysT u = expectedIosColumns ∧
      (∀ c, c ∈ expectedIosColumns → hasColT t c = false → getColT u c = some "N/A") ∧
      (∀ c v, c ∈ expectedIosColumns → getColT t c = some v → getColT u c = some v) ∧
      (∀ c, c ∉ expectedIosColumns → hasColT u c = false) := by
  unfold iosFinalize
  set extra := (keysT t).filter (fun c2 => !(memS c2 expectedIosColumns)) with hextra
  set t1 := t.filter (fun p => !(memS p.1 extra)) with ht1
  set missing := expectedIosColumns.filter (fun c => !(hasColT t1 c)) with hmissing
  set t2 := missing.foldl (fun acc c => setColT acc c "N/A") t1 with ht2
  have hnot_extra : ∀ c, c ∈ expectedIosColumns → (!(memS c extra)) = true := by
    intro c hc
    cases hms : memS c extra
    · rfl
    · exfalso
      have hmem := (memS_iff c extra).mp hms
      rw [hextra, List.mem_filter] at hmem
      have h2 := hmem.2
      have h3 : memS c expectedIosColumns = true := (memS_iff c expectedIosColumns).mpr hc
      rw [h3] at h2
      exact Bool.noConfusion h2
  have h1get : ∀ c, c ∈ expectedIosColumns → getColT t1 c = getColT t c := by
    intro c hc
    rw [ht1, getColT_filter_key (fun x => !(memS x extra)) t c, if_pos (hnot_extra c hc)]
  have h1has : ∀ c, c ∈ expectedIosColumns → hasColT t1 c = hasColT t c := by
    intro c hc
    rw [ht1, hasColT_filter_key (fun x => !(memS x extra)) t c, hnot_extra c hc, Bool.and_true]
  have hmem_missing : ∀ c, c ∈ missing ↔ (c ∈ expectedIosColumns ∧ hasColT t1 c = false) := by
    intro c
    rw [hmissing, List.mem_filter]
    simp
  have hfill : ∀ c, c ∈ expectedIosColumns → hasColT t c = false →
      getColT t2 c = some "N/A" := by
    intro c hc hfalse
    have hcm : c ∈ missing := by
      rw [hmem_missing]
      exact ⟨hc, by rw [h1has c hc]; exact hfalse⟩
    rw [ht2]
    exact getColT_foldl_set_mem _ missing t1 c hcm
  have hpres : ∀ c v, c ∈ expectedIosColumns → getColT t c = some v →
      getColT t2 c = some v := by
    intro c v hc hv
    have hhas : hasColT t c = true := getColT_some_has t c v hv
    have hcnm : c ∉ missing := by
      intro hcm
      have h2 := ((hmem_missing c).mp hcm).2
      rw [h1has c hc, hhas] at h2
      exact Bool.noConfusion h2
    rw [ht2, getColT_foldl_set_not_mem _ missing t1 c hcnm, h1get c hc]
    exact hv
  have hall : ∀ c ∈ expectedIosColumns, hasColT t2 c = true := by
    intro c hc
    rw [ht2]
    apply hasColT_foldl_set
    by_cases hh : hasColT t1 c = true
    · exact Or.inl hh
    · refine Or.inr ((hmem_missing c).mpr ⟨hc, ?_⟩)
      revert hh
      cases hasColT t1 c <;> simp
  have hreindex : reindexT "N/A" expectedIosColumns t2 =
      some (expectedIosColumns.map (fun c => (c, (getColT t2 c).getD "N/A"))) := by
    unfold reindexT
    rw [if_pos (List.all_eq_true.mpr hall)]
  refine ⟨expectedIosColumns.map (fun c => (c, (getColT t2 c).getD "N/A")), hreindex,
    keysT_map_mk expectedIosColumns _, ?_, ?_, ?_⟩
  · intro c hc hfalse
    rw [getColT_map_mk expectedIosColumns _ c hc, hfill c hc hfalse]
    rfl
  · intro c v hc hv
    rw [getColT_map_mk expectedIosColumns _ c hc, hpres c v hc hv]
    rfl
  · intro c hc
    cases hb : hasColT _ c
    · rfl
    · exfalso
      have := (hasColT_iff _ c).mp hb
      rw [keysT_map_mk expectedIosColumns _] at this
      exact hc this

/-- Example input for the C2 witness: one extra column and only the date
column from the whitelist. -/
def c2ex : STable := [("Extra", "x"), ("date", "2025/03/01")]

/-- Witness for C2 at a concrete table: the output carries exactly the
whitelist, the absent Country column is sentinel-filled and the date
value survives. -/
theorem c2_witness :
    ∃ u, iosFinalize c2ex = some u ∧ keysT u = expectedIosColumns ∧
      getColT u "Country" = some "N/A" ∧ getColT u "date" = some "2025/03/01" := by
  obtain ⟨u, h1, h2, h3, h4, _⟩ := c2_ios_dau_whitelist c2ex
  exact ⟨u, h1, h2, h3 "Country" (by decide) (by decide),
    h4 "date" "2025/03/01" (by decide) (by decide)⟩

/-- A retention table: one row of numeric cells per column; a null cell
(NaN, or an inserted empty column) is `none`. -/
abbrev QTable := Tbl (Option ℚ)

/-- Round half to even at the integer level, the rounding used by Python
and numpy: with f the floor of q (floor division of numerator by
denominator) and r the fractional remainder, round down below one half,
up above one half, and to the even neighbour on a tie. -/
def roundHalfEven (q : ℚ) : ℤ :=
  if 2 * q.num.fmod (q.den : ℤ) < (q.den : ℤ) then q.num.fdiv (q.den : ℤ)
  else if (q.den : ℤ) < 2 * q.num.fmod (q.den : ℤ) then q.num.fdiv (q.den : ℤ) + 1
  else if q.num.fdiv (q.den : ℤ) % 2 = 0 then q.num.fdiv (q.den : ℤ)
  else q.num.fdiv (q.den : ℤ) + 1

/-- pandas `.round(4)` modelled on exact rationals. -/
def round4 (q : ℚ) : ℚ := (roundHalfEven (q * 10000) : ℚ) / 10000

/-- Division of two cells followed by rounding; a missing column or null
cell propagates as null, as NaN does. -/
def divRound (a b : Option (Option ℚ)) : Option ℚ :=
  match a, b with
  | some (some x), some (some y) => some (round4 (x / y))
  | _, _ => none

/-- Column name `sessions - Unique users - day N - partial`. -/
def rcName (n : Nat) : String :=
  "sessions - Unique users - day " ++ Nat.repr n ++ " - partial"

/-- Column name `sessions - Unique users - day N`. -/
def acName (n : Nat) : String := "sessions - Unique users - day " ++ Nat.repr n

/-- Derived column name `dayN`. -/
def dayName (n : Nat) : String := "day" ++ Nat.repr n

/-- One day of the retention-rate loop of process_retention_files: when
the partial-suffixed column exists, the dayN column is its value divided
by the users column, rounded to 4 decimals; else when the plain column
exists it is first copied into the partial-suffixed name and the ratio is
computed from the copy; else nothing happens for this day. -/
def computeDay (users : String) (t : QTable) (n : Nat) : QTable :=
  if hasColT t (rcName n) then
    setColT t (dayName n) (divRound (getColT t (rcName n)) (getColT t users))
  else if hasColT t (acName n) then
    setColT (setColT t (rcName n) ((getColT t (acName n)).getD none))
      (dayName n)
      (divRound
        (getColT (setColT t (rcName n) ((getColT t (acName n)).getD none)) (rcName n))
        (getColT (setColT t (rcName n) ((getColT t (acName n)).getD none)) users))
  else t

/-- The full retention-rate loop over the channel's day set. -/
def processDays (users : String) (days : List Nat) (t : QTable) : QTable :=
  days.foldl (computeDay users) t

theorem computeDay_frame (users : String) (t : QTable) (n : Nat) (c : String)
    (h1 : c ≠ rcName n) (h2 : c ≠ dayName n) :
    getColT (computeDay users t n) c = getColT t c ∧
      hasColT (computeDay users t n) c = hasColT t c := by
  unfold computeDay
  split
  · exact ⟨getColT_set_other t (dayName n) c _ h2, hasColT_set_other t (dayName n) c _ h2⟩
  split
  · constructor
    · rw [getColT_set_other _ (dayName n) c _ h2]
      exact getColT_set_other t (rcName n) c _ h1
    · rw [hasColT_set_other _ (dayName n) c _ h2]
      exact hasColT_set_other t (rcName n) c _ h1
  · exact ⟨rfl, rfl⟩

theorem processDays_frame (users : String) (days : List Nat) :
    ∀ (t : QTable) (c : String),
      (∀ d ∈ days, c ≠ rcName d ∧ c ≠ dayName d) →
      getColT (processDays users days t) c = getColT t c ∧
        hasColT (processDays users days t) c = hasColT t c := by
  induction days with
  | nil =>
    intro t c _
    exact ⟨rfl, rfl⟩
  | cons d ds ih =>
    intro t c hc
    have hd := hc d (List.mem_cons_self _ _)
    have hstep := computeDay_frame users t d c hd.1 hd.2
    unfold processDays at ih ⊢
    rw [List.foldl_cons]
    have hrest := ih (computeDay users t d) c (fun x hx => hc x (List.mem_cons_of_mem _ hx))
    exact ⟨hrest.1.trans hstep.1, hrest.2.trans hstep.2⟩

theorem computeDay_at (users : String) (t : QTable) (n : Nat)
    (hru : rcName n ≠ users) :
    (∀ u v : ℚ, getColT t (rcName n) = some (some v) → getColT t users = some (some u) →
      getColT (computeDay users t n) (dayName n) = some (some (round4 (v / u)))) ∧
    (hasColT t (rcName n) = false → ∀ u v : ℚ,
      getColT t (acName n) = some (some v) → getColT t users = some (some u) →
      getColT (computeDay users t n) (dayName n) = some (some (round4 (v / u)))) ∧
    (hasColT t (rcName n) = false → hasColT t (acName n) = false →
      computeDay users t n = t) := by
  refine ⟨?_, ?_, ?_⟩
  · intro u v hv hu
    unfold computeDay
    rw [if_pos (getColT_some_has t (rcName n) _ hv), getColT_set_self, hv, hu]
    rfl
  · intro hrc u v hv hu
    unfold computeDay
    rw [if_neg (by simp [hrc]), if_pos (getColT_some_has t (acName n) _ hv),
      getColT_set_self]
    have hv1 : getColT (setColT t (rcName n) ((getColT t (acName n)).getD none)) (rcName n) =
        some ((getColT t (acName n)).getD none) := getColT_set_self t (rcName n) _
    have hu1 : getColT (setColT t (rcName n) ((getColT t (acName n)).getD none)) users =
        getColT t users := getColT_set_other t (rcName n) users _ (Ne.symm hru)
    rw [hv1, hu1, hv, hu]
    rfl
  · intro hrc hac
    unfold computeDay
    rw [if_neg (by simp [hrc]), if_neg (by simp [hac])]

/-- C3: for every retention table and every day N of the channel's day
set (the day sets of the source channels have pairwise distinct derived
column names, as the witness checks), the derived dayN column equals the
partial-suffixed session column divided by the users column, rounded to 4
decimals; failing the partial spelling, the plain spelling is copied into
the partial name and gives the same ratio; and if neither spelling exists
the dayN column is simply not created. -/
theorem c3_retention_ratio (users : String) (days : List Nat) : ∀ (N : Nat) (t : QTable),
    N ∈ days → days.Nodup →
    (∀ d ∈ days, d ≠ N → rcName d ≠ rcName N ∧ rcName d ≠ acName N ∧ rcName d ≠ dayName N ∧
      dayName d ≠ rcName N ∧ dayName d ≠ acName N ∧ dayName d ≠ dayName N) →
    (∀ d ∈ days, rcName d ≠ users ∧ dayName d ≠ users) →
    ((∀ u v : ℚ, getColT t (rcName N) = some (some v) →
        getColT t users = some (some u) →
        getColT (processDays users days t) (dayName N) = some (some (round4 (v / u)))) ∧
      (hasColT t (rcName N) = false → ∀ u v : ℚ,
        getColT t (acName N) = some (some v) → getColT t users = some (some u) →
        getColT (processDays users days t) (dayName N) = some (some (round4 (v / u)))) ∧
      (hasColT t (rcName N) = false → hasColT t (acName N) = false →
        hasColT t (dayName N) = false →
        hasColT (processDays users days t) (dayName N) = false)) := by
  induction days with
  | nil =>
    intro N t hN _ _ _
    simp at hN
  | cons d ds ih =>
    intro N t hN hnodup hdist husers
    have hstep : processDays users (d :: ds) t = processDays users ds (computeDay users t d) := by
      unfold processDays
      rw [List.foldl_cons]
    by_cases hdN : d = N
    · subst hdN
      have hNds : d ∉ ds := (List.nodup_cons.mp hnodup).1
      have hframe : ∀ t2 : QTable,
          getColT (processDays users ds t2) (dayName d) = getColT t2 (dayName d) ∧
            hasColT (processDays users ds t2) (dayName d) = hasColT t2 (dayName d) := by
        intro t2
        apply processDays_frame
        intro x hx
        have hxd : x ≠ d := fun h => hNds (h ▸ hx)
        have h6 := hdist x (List.mem_cons_of_mem _ hx) hxd
        exact ⟨Ne.symm h6.2.2.1, Ne.symm h6.2.2.2.2.2⟩
      have hat := computeDay_at users t d (husers d (List.mem_cons_self _ _)).1
      refine ⟨?_, ?_, ?_⟩
      · intro u v hv hu
        rw [hstep, (hframe _).1]
        exact hat.1 u v hv hu
      · intro hrc u v hv hu
        rw [hstep, (hframe _).1]
        exact hat.2.1 hrc u v hv hu
      · intro hrc hac hday
        rw [hstep, (hframe _).2, hat.2.2 hrc hac]
        exact hday
    · have hd6 := hdist d (List.mem_cons_self _ _) hdN
      have hu2 := husers d (List.mem_cons_self _ _)
      have hfr_rc := computeDay_frame users t d (rcName N) (Ne.symm hd6.1)
        (Ne.symm hd6.2.2.2.1)
      have hfr_ac := computeDay_frame users t d (acName N) (Ne.symm hd6.2.1)
        (Ne.symm hd6.2.2.2.2.1)
      have hfr_day := computeDay_frame users t d (dayName N) (Ne.symm hd6.2.2.1)
        (Ne.symm hd6.2.2.2.2.2)
      have hfr_users := computeDay_frame users t d users (Ne.symm hu2.1) (Ne.symm hu2.2)
      have hN2 : N ∈ ds := by
        rcases List.mem_cons.mp hN with h | h
        · exact absurd h.symm hdN
        · exact h
      have ih2 := ih N (computeDay users t d) hN2 (List.nodup_cons.mp hnodup).2
        (fun x hx hxe => hdist x (List.mem_cons_of_mem _ hx) hxe)
        (fun x hx => husers x (List.mem_cons_of_mem _ hx))
      refine ⟨?_, ?_, ?_⟩
      · intro u v hv hu
        rw [hstep]
        exact ih2.1 u v (by rw [hfr_rc.1]; exact hv) (by rw [hfr_users.1]; exact hu)
      · intro hrc u v hv hu
        rw [hstep]
        exact ih2.2.1 (by rw [hfr_rc.2]; exact hrc) u v (by rw [hfr_ac.1]; exact hv)
          (by rw [hfr_users.1]; exact hu)
      · intro hrc hac hday
        rw [hstep]
        exact ih2.2.2 (by rw [hfr_rc.2]; exact hrc) (by rw [hfr_ac.2]; exact hac)
          (by rw [hfr_day.2]; exact hday)

/-- The ios/android retention day set of the source. -/
def c3days : List Nat := [1, 2, 3, 4, 5, 6, 7, 14, 30]

/-- Example retention row for the C3 witness: 100 users, 37 returning on
day 1 under the partial-suffixed column. -/
def c3t : QTable := [("Users", some (100 : ℚ)), (rcName 1, some (37 : ℚ))]

theorem round4_at_example : round4 (37 / 100) = (37 : ℚ) / 100 := by
  have h1 : (37 / 100 * 10000 : ℚ) = (3700 : ℚ) := by norm_num
  unfold round4 roundHalfEven
  rw [h1]
  have hnum : (3700 : ℚ).num = 3700 := rfl
  have hden : (((3700 : ℚ).den : ℤ)) = 1 := rfl
  rw [hnum, hden]
  have hc1 : 2 * Int.fmod 3700 1 < 1 := by decide
  rw [if_pos hc1]
  have h3 : Int.fdiv 3700 1 = 3700 := by decide
  rw [h3]
  norm_num

/-- Witness for C3 at the spec's example: Users 100 and day-1 partial 37
give day1 = 0.37. -/
theorem c3_witness :
    getColT (processDays "Users" c3days c3t) (dayName 1) =
        some (some (round4 (37 / 100))) ∧
      round4 (37 / 100) = (37 : ℚ) / 100 :=
  ⟨(c3_retention_ratio "Users" c3days 1 c3t (by decide) (by decide) (by decide)
      (by decide)).1 100 37 rfl rfl,
    round4_at_example⟩

/-- An uploaded retention file: its name and its parsed table. -/
structure RFile where
  name : Str
  table : QTable

/-- Channel patterns, empty-column counts and day sets of
process_retention_files, in the source dict's insertion order. -/
def channelsConfig : List (String × Str × Nat × List Nat) :=
  [("ios", str "retention_ios.csv", 4, [1, 2, 3, 4, 5, 6, 7, 14, 30]),
   ("ios_formal", str "retention_ios_formal.csv", 4, [1, 2, 3, 4, 5, 6, 7, 14, 30]),
   ("mvp", str "retention_mvp.csv", 1, [1, 2, 3, 4, 5, 6, 7, 14]),
   ("and", str "retention_and.csv", 0, [1, 2, 3, 4, 5, 6, 7, 14, 30])]

/-- Channel matching: the first configured channel whose pattern occurs
in the lowercased filename. -/
def matchChannel (fname : Str) : Option (String × Str × Nat × List Nat) :=
  channelsConfig.find? (fun cfg => containsSub (toLowerStr fname) cfg.2.1)

/-- Date column search: Cohort Day preferred, else the fallback list. -/
def findDateCol (t : QTable) : Option String :=
  if hasColT t "Cohort Day" then some "Cohort Day"
  else (["Date", "date", "日期", "DAY", "Day", "day"]).find? (fun c => hasColT t c)

/-- Users column search: Users preferred, else the fallback list. -/
def findUsersCol (t : QTable) : Option String :=
  if hasColT t "Users" then some "Users"
  else (["users", "用户数", "DAU", "User Count", "user_count"]).find? (fun c => hasColT t c)

/-- Names of the inserted empty padding columns: runs of spaces. -/
def spacesName (k : Nat) : String := String.mk (List.replicate k ' ')

/-- The channel-specific empty padding columns, set to null. -/
def addEmptyCols (n : Nat) (t : QTable) : QTable :=
  (List.range n).foldl (fun acc j => setColT acc (spacesName (j + 1)) none) t

/-- Per-file retention processing: match the channel from the filename,
require a recognizable date column and users column (else the file is
skipped), add the channel's empty columns and compute the day ratios.
Row sorting is not modelled: it permutes rows only and does not affect
which table is stored for the channel. -/
def processRetentionFile (f : RFile) : Option (String × QTable) :=
  match matchChannel f.name with
  | none => none
  | some cfg =>
    if (findDateCol f.table).isSome then
      match findUsersCol f.table with
      | some uc => some (cfg.1, processDays uc cfg.2.2.2 (addEmptyCols cfg.2.2.1 f.table))
      | none => none
    else none

/-- One iteration of the upload loop: a successfully processed file
stores its table under its channel, overwriting any earlier one. -/
def retStep (acc : Tbl QTable) (f : RFile) : Tbl QTable :=
  match processRetentionFile f with
  | some (ch, t) => setColT acc ch t
  | none => acc

/-- The upload loop of process_retention_files over a batch of files. -/
def process_retention_files (files : List RFile) : Tbl QTable :=
  files.foldl retStep []

/-- The contribution of one file to a given channel: its processed table
when the file matches that channel and processes successfully. -/
def successFor (ch : String) (f : RFile) : Option QTable :=
  match processRetentionFile f with
  | some (c, t) => if c = ch then some t else none
  | none => none

/-- Last element of a list, if any. -/
def lastOpt {α : Type} : List α → Option α
  | [] => none
  | [x] => some x
  | _ :: y :: t => lastOpt (y :: t)

theorem lastOpt_ne_none {α : Type} : ∀ (y : α) (ys : List α), lastOpt (y :: ys) ≠ none := by
  intro y ys
  induction ys generalizing y with
  | nil => simp [lastOpt]
  | cons z zs ih =>
    show lastOpt (z :: zs) ≠ none
    exact ih z

theorem c10_aux (files : List RFile) : ∀ (acc : Tbl QTable) (ch : String),
    getColT (files.foldl retStep acc) ch =
      match lastOpt (files.filterMap (successFor ch)) with
      | some t => some t
      | none => getColT acc ch := by
  induction files with
  | nil =>
    intro acc ch
    rfl
  | cons f fs ih =>
    intro acc ch
    rw [List.foldl_cons, List.filterMap_cons]
    cases hp : processRetentionFile f with
    | none =>
      have hs : successFor ch f = none := by
        unfold successFor
        rw [hp]
      have hstep : retStep acc f = acc := by
        unfold retStep
        rw [hp]
      rw [hs, hstep]
      exact ih acc ch
    | some ct =>
      obtain ⟨c, t⟩ := ct
      have hstep : retStep acc f = setColT acc c t := by
        unfold retStep
        rw [hp]
      by_cases hc : c = ch
      · subst hc
        have hs : successFor c f = some t := by
          unfold successFor
          rw [hp]
          show (if c = c then some t else none) = some t
          rw [if_pos rfl]
        rw [hs, hstep, ih (setColT acc c t) c]
        cases hl : lastOpt (fs.filterMap (successFor c)) with
        | some u =>
          have hcons : lastOpt (t :: fs.filterMap (successFor c)) = some u := by
            cases hfm : fs.filterMap (successFor c) with
            | nil =>
              rw [hfm] at hl
              exact absurd hl (by simp [lastOpt])
            | cons z zs =>
              rw [hfm] at hl
              show lastOpt (z :: zs) = some u
              exact hl
          rw [hcons]
        | none =>
          have hnil : fs.filterMap (successFor c) = [] := by
            cases hfm : fs.filterMap (successFor c) with
            | nil => rfl
            | cons z zs =>
              rw [hfm] at hl
              exact absurd hl (lastOpt_ne_none z zs)
          rw [hnil]
          show getColT (setColT acc c t) c = some t
          exact getColT_set_self acc c t
      · have hs : successFor ch f = none := by
          unfold successFor
          rw [hp]
          show (if c = ch then some t else none) = none
          rw [if_neg hc]
        rw [hs, hstep, ih (setColT acc c t) ch,
          getColT_set_other acc c ch t (Ne.symm hc)]

/-- C10: retention processing keeps at most one table per channel — the
table stored for a channel after a whole batch is exactly the processed
table of the last file in upload order that matched that channel and was
processed successfully; earlier matching files are overwritten and no
concatenation across files takes place. -/
theorem c10_retention_last_file_wins (files : List RFile) (ch : String) :
    getColT (process_retention_files files) ch =
      lastOpt (files.filterMap (successFor ch)) := by
  unfold process_retention_files
  rw [c10_aux files [] ch]
  cases lastOpt (files.filterMap (successFor ch)) <;> rfl

/-- Python list.insert at a position. -/
def insertAt {α : Type} (i : Nat) (x : α) (l : List α) : List α :=
  l.take i ++ x :: l.drop i

/-- dict.fromkeys-style order-preserving deduplication. -/
def dedupFirst (l : List String) : List String :=
  l.foldl (fun acc c => if memS c acc then acc else acc ++ [c]) []

/-- The unified column list of create_integrated_dau: every channel table
receives the 三端 discriminator column at position 1 and the column lists
are united keeping first occurrences. -/
def integratedDauColumns (colsPerChannel : List (List String)) : List String :=
  dedupFirst (List.flatten (colsPerChannel.map (insertAt 1 "三端")))

/-- The final truncation guard of create_integrated_dau, exactly as
written: with more than 16 columns, keep the first 15 plus 三端 — but
only when 三端 is not already among the first 15 columns. -/
def truncateDauColumns (cols : List String) : List String :=
  if 16 < cols.length then
    if memS "三端" cols && !(memS "三端" (cols.take 15)) then cols.take 15 ++ ["三端"]
    else cols
  else cols

/-- A 16-column channel table for the C8 failing input. -/
def c8input : List String :=
  ["date", "c2", "c3", "c4", "c5", "c6", "c7", "c8", "c9", "c10", "c11", "c12",
   "c13", "c14", "c15", "c16"]

/-- C8 at the failing input: a single channel with 16 columns makes the
unified table 17 columns wide, yet the truncation branch does not fire —
三端 is inserted at position 1 and hence always lies within the first 15
columns — so the integrated output keeps all 17 columns instead of being
cut to 16 as the comment above the guard promises. -/
theorem c8_truncation_dead_code :
    (integratedDauColumns [c8input]).length = 17 ∧
      16 < (integratedDauColumns [c8input]).length ∧
      truncateDauColumns (integratedDauColumns [c8input]) = integratedDauColumns [c8input] ∧
      (truncateDauColumns (integratedDauColumns [c8input])).length ≠ 16 := by
  refine ⟨?_, ?_, ?_, ?_⟩ <;> decide
